import Mathlib

/-!
Verification development for the TP-Hash repository (src/ht.h and
src/tp_dtable.h), a pair of fixed-width byte-record hash-table engines:
a Robin Hood open-addressing table (`ht.h`) and a tiny-pointer
dereference table built from two bucketized load-balancing tables
(`tp_dtable.h`).

Shallow embedding conventions:
 - a key (resp. value) is modelled as its list of `key_size`
   (resp. `value_size`) bytes, each byte a `Nat` below 256; `memcmp`
   over the fixed widths becomes list equality;
 - 32-bit unsigned arithmetic in the FNV-1a hashes is modelled with
   explicit `% 2^32`;
 - the flat entry arrays become total functions from slot index to
   entry contents (the C tables never read outside the allocated
   range, so the function values beyond the capacity are irrelevant);
 - the unbounded `while (1)` probe loops of `ht.h` take an explicit
   fuel argument and return `none` when the fuel runs out (the C code
   would still be looping at that point); all theorems either supply
   enough fuel or condition on the loop having returned;
 - `malloc` success is an explicit boolean parameter (`allocOk`) in the
   operations that allocate, so the growth-failure paths are part of
   the model;
 - `ht->size` is a `size_t` in C; it is modelled as a `Nat`.  Its
   decrement in `ht_delete` is truncated (`0 - 1 = 0`) where the C
   wraps; no theorem below observes the size field in the states where
   the two differ (that corner requires a previously failed growth).
   The load-factor test `(double)(ht->size + 1) > ht->capacity * 0.5`
   is exact for the sizes a real run can reach, and is embedded as
   `2 * (size + 1) > capacity`.
-/

set_option maxHeartbeats 1000000

namespace TPHash

/-! ## Embedding of src/ht.h — Robin Hood open-addressing table -/

/-- An `Entry` of the Robin Hood table (src/ht.h lines 11–14): probe
distance (`-1` marks an empty slot) followed by the key and value bytes. -/
structure Entry where
  dist : Int
  key  : List Nat
  val  : List Nat
deriving DecidableEq, Repr

/-- The `HashTable` struct of src/ht.h lines 16–22.  `entries` maps a slot
index to its contents. -/
structure HashTable where
  key_size : Nat
  value_size : Nat
  capacity : Nat
  size : Nat
  entries : Nat → Entry

/-- INITIAL_CAPACITY of src/ht.h line 8. -/
def INITIAL_CAPACITY : Nat := 8

/-- The FNV-1a hash of src/ht.h lines 57–65, with 32-bit wrap-around made
explicit. -/
def fnv1 (key : List Nat) : Nat :=
  key.foldl (fun h b => ((h ^^^ b) * 16777619) % 4294967296) 2166136261

/-- Pointwise update of an entry array, the effect of a store through
`(Entry *)((char*)ht->entries + idx * es)`. -/
def upd (E : Nat → Entry) (i : Nat) (e : Entry) : Nat → Entry :=
  fun j => if j = i then e else E j

/-- Loop body of `next_power_of_two` (src/ht.h lines 67–71), with fuel
(the C loop terminates because `p` doubles; fuel `n` always suffices). -/
def nptLoop : Nat → Nat → Nat → Nat
  | 0, _, p => p
  | fuel+1, n, p => if p < n then nptLoop fuel n (2 * p) else p

/-- The `next_power_of_two` helper of src/ht.h lines 67–71. -/
def next_power_of_two (n : Nat) : Nat := nptLoop n n 1

/-- The shared probe loop of `ht_insert` (src/ht.h lines 194–221) and
`ht_reinsert` (lines 83–110): carry a key/value pair forward from `idx`
with the current probe distance, placing it at the first empty slot
(result flag `true`: a new slot was filled), overwriting the value on a
key match (flag `false`), and performing the Robin Hood swap when the
resident's distance is smaller than the probe distance. -/
def placeLoop (cap : Nat) : Nat → (Nat → Entry) → Nat → Int → List Nat → List Nat →
    Option ((Nat → Entry) × Bool)
  | 0, _, _, _, _, _ => none
  | fuel+1, E, idx, probe, kc, vc =>
    let e := E idx
    if e.dist = -1 then
      some (upd E idx ⟨probe, kc, vc⟩, true)
    else if e.key = kc then
      some (upd E idx ⟨e.dist, e.key, vc⟩, false)
    else if e.dist < probe then
      placeLoop cap fuel (upd E idx ⟨probe, kc, vc⟩) ((idx + 1) &&& (cap - 1)) (e.dist + 1)
        e.key e.val
    else
      placeLoop cap fuel E ((idx + 1) &&& (cap - 1)) (probe + 1) kc vc

/-- One `ht_reinsert`/insert-phase step on a table state: run `placeLoop`
from the key's home slot and increment `size` when a new slot was filled
(src/ht.h lines 75–110 and 187–221). -/
def rh_place (fuel : Nat) (ht : HashTable) (k v : List Nat) : Option (HashTable × Bool) :=
  match placeLoop ht.capacity fuel ht.entries (fnv1 k &&& (ht.capacity - 1)) 0 k v with
  | none => none
  | some (E, isNew) =>
      some ({ ht with entries := E, size := if isNew then ht.size + 1 else ht.size }, isNew)

/-- The reinsertion sweep of `ht_resize` (src/ht.h lines 171–176): fold
`ht_reinsert` over the old slots holding a record (`dist >= 0`). -/
def reinsertFold (cap2 fuel : Nat) (E0 : Nat → Entry) :
    List Nat → ((Nat → Entry) × Nat) → Option ((Nat → Entry) × Nat)
  | [], acc => some acc
  | i :: is, (E, sz) =>
    if 0 ≤ (E0 i).dist then
      match placeLoop cap2 fuel E (fnv1 (E0 i).key &&& (cap2 - 1)) 0 (E0 i).key (E0 i).val with
      | none => none
      | some (E2, isNew) => reinsertFold cap2 fuel E0 is (E2, if isNew then sz + 1 else sz)
    else
      reinsertFold cap2 fuel E0 is (E, sz)

/-- `ht_resize` (src/ht.h lines 153–179).  On allocation failure the C
code restores the old entries and capacity but leaves `ht->size` at the
`0` it was set to before the allocation, and returns 1.  On success it
reinserts every occupied old slot into a fresh all-empty array of the
next power of two of `new_capacity` and returns 0. -/
def ht_resize (allocOk : Bool) (fuel : Nat) (ht : HashTable) (new_capacity : Nat) :
    Option (Nat × HashTable) :=
  if allocOk = false then
    some (1, { ht with size := 0 })
  else
    match reinsertFold (next_power_of_two new_capacity) fuel ht.entries
        (List.range ht.capacity) (fun _ => ⟨-1, [], []⟩, 0) with
    | none => none
    | some (E, sz) =>
        some (0, { ht with capacity := next_power_of_two new_capacity, size := sz, entries := E })

/-- `ht_insert` (src/ht.h lines 183–222): grow when `size + 1` would
exceed half the capacity (LOAD_FACTOR 0.5), propagating a growth failure
as return code 1, then run the probe loop; returns 0 otherwise. -/
def ht_insert (allocOk : Bool) (fuel : Nat) (ht : HashTable) (k v : List Nat) :
    Option (Nat × HashTable) :=
  if 2 * (ht.size + 1) > ht.capacity then
    match ht_resize allocOk fuel ht (ht.capacity * 2) with
    | none => none
    | some (r, ht1) =>
      if r ≠ 0 then some (1, ht1)
      else
        match rh_place fuel ht1 k v with
        | none => none
        | some (ht2, _) => some (0, ht2)
  else
    match rh_place fuel ht k v with
    | none => none
    | some (ht2, _) => some (0, ht2)

/-- The probe loop of `ht_find` (src/ht.h lines 225–239).  The outer
`Option` is the fuel; the inner one is the C result (`some` value bytes,
or `none` for the NULL not-found result). -/
def findLoop (cap : Nat) : Nat → (Nat → Entry) → Nat → Int → List Nat →
    Option (Option (List Nat))
  | 0, _, _, _, _ => none
  | fuel+1, E, idx, probe, k =>
    let e := E idx
    if e.dist = -1 then some none
    else if probe > e.dist then some none
    else if e.key = k then some (some e.val)
    else findLoop cap fuel E ((idx + 1) &&& (cap - 1)) (probe + 1) k

/-- `ht_find` (src/ht.h lines 225–239). -/
def ht_find (fuel : Nat) (ht : HashTable) (k : List Nat) : Option (Option (List Nat)) :=
  findLoop ht.capacity fuel ht.entries (fnv1 k &&& (ht.capacity - 1)) 0 k

/-- The backward-shift loop of `ht_delete` (src/ht.h lines 254–265):
while the next slot holds a record displaced by at least one, pull it
back into the hole decrementing its distance; finally mark the last hole
empty. -/
def shiftLoop (cap : Nat) : Nat → (Nat → Entry) → Nat → Nat → Option (Nat → Entry)
  | 0, _, _, _ => none
  | fuel+1, E, hole, next =>
    let ne := E next
    if ne.dist ≤ 0 then
      some (upd E hole ⟨-1, (E hole).key, (E hole).val⟩)
    else
      shiftLoop cap fuel (upd E hole ⟨ne.dist - 1, ne.key, ne.val⟩) next
        ((next + 1) &&& (cap - 1))

/-- The search loop of `ht_delete` (src/ht.h lines 247–270): scan like
`ht_find`; on a match mark the slot empty and run the backward shift.
Returns the C return code (always 0), whether a record was removed, and
the resulting entries. -/
def deleteLoop (cap : Nat) : Nat → (Nat → Entry) → Nat → Int → List Nat → Nat →
    Option (Nat × Bool × (Nat → Entry))
  | 0, _, _, _, _, _ => none
  | fuel+1, E, idx, probe, k, sfuel =>
    let e := E idx
    if e.dist = -1 then some (0, false, E)
    else if probe > e.dist then some (0, false, E)
    else if e.key = k then
      match shiftLoop cap sfuel (upd E idx ⟨-1, e.key, e.val⟩) idx ((idx + 1) &&& (cap - 1)) with
      | none => none
      | some E2 => some (0, true, E2)
    else deleteLoop cap fuel E ((idx + 1) &&& (cap - 1)) (probe + 1) k sfuel

/-- `ht_delete` (src/ht.h lines 242–271): the return code, and the table
with `size` decremented exactly when a record was removed. -/
def ht_delete (fuel : Nat) (ht : HashTable) (k : List Nat) : Option (Nat × HashTable) :=
  match deleteLoop ht.capacity fuel ht.entries (fnv1 k &&& (ht.capacity - 1)) 0 k fuel with
  | none => none
  | some (r, removed, E) =>
      some (r, { ht with entries := E, size := if removed then ht.size - 1 else ht.size })

/-- `ht_init` (src/ht.h lines 114–128), successful-allocation path: the
requested `INITIAL_CAPACITY` rounded up to a power of two, all slots
empty (the malloc'd key/value bytes are never read while a slot is
empty, and are modelled as `[]`). -/
def ht_init (key_size value_size : Nat) : HashTable :=
  { key_size := key_size
    value_size := value_size
    capacity := next_power_of_two INITIAL_CAPACITY
    size := 0
    entries := fun _ => ⟨-1, [], []⟩ }

/-- `ht_reset` (src/ht.h lines 139–150): zero all bytes, re-mark every
slot empty, reset `size`. -/
def ht_reset (ht : HashTable) : HashTable :=
  { ht with
    size := 0
    entries := fun _ => ⟨-1, List.replicate ht.key_size 0, List.replicate ht.value_size 0⟩ }

/-! ## Specification-side views of a Robin Hood table state -/

/-- Home slot of a key: `fnv1(key) & (capacity - 1)`, written with `%`
(equal for the power-of-two capacities the table maintains; see
`home_eq_mask`). -/
def home (cap : Nat) (k : List Nat) : Nat := fnv1 k % cap

/-- Forward displacement (modulo the capacity) of slot `i` from a home
slot `h < cap`. -/
def disp (cap i h : Nat) : Nat := (i + cap - h) % cap

/-- Slot `i` holds the record `(k, v)`. -/
def storedAt (ht : HashTable) (i : Nat) (k v : List Nat) : Prop :=
  i < ht.capacity ∧ (ht.entries i).dist ≠ -1 ∧ (ht.entries i).key = k ∧ (ht.entries i).val = v

/-- Some slot holds the record `(k, v)`. -/
def stored (ht : HashTable) (k v : List Nat) : Prop := ∃ i, storedAt ht i k v

/-- Some slot holds a record with key `k`. -/
def hasKey (ht : HashTable) (k : List Nat) : Prop := ∃ i v, storedAt ht i k v

/-- Number of occupied slots (the quantity `ht->size` caches in an
uncorrupted state). -/
def countOccupied (ht : HashTable) : Nat :=
  (List.range ht.capacity).countP (fun i => (ht.entries i).dist != -1)

/-- Structural well-formedness of a slot array of `cap` slots holding
keys of width `ks`: every occupied slot's stored distance is exactly its
forward displacement from its key's home slot; stored keys have the
creation key width; keys are pairwise distinct; and the Robin Hood
chain condition: a record displaced by `d > 0` has an occupied
predecessor displaced by at least `d - 1`. -/
structure EInv (cap ks : Nat) (E : Nat → Entry) : Prop where
  dist_eq : ∀ i < cap, (E i).dist ≠ -1 →
    (E i).dist = (disp cap i (home cap (E i).key) : Int)
  keylen : ∀ i < cap, (E i).dist ≠ -1 → (E i).key.length = ks
  distinct : ∀ i < cap, ∀ j < cap, (E i).dist ≠ -1 → (E j).dist ≠ -1 →
    (E i).key = (E j).key → i = j
  chain : ∀ i < cap, (E i).dist ≠ -1 → 0 < (E i).dist →
    (E ((i + cap - 1) % cap)).dist ≠ -1 ∧
    (E i).dist ≤ (E ((i + cap - 1) % cap)).dist + 1

/-- Structural well-formedness of a Robin Hood table state: power-of-two
capacity at least the initial one, and the slot-array invariant. -/
structure Inv (ht : HashTable) : Prop where
  cap_pow : ∃ m, ht.capacity = 2 ^ m
  cap_ge : 8 ≤ ht.capacity
  einv : EInv ht.capacity ht.key_size ht.entries

theorem Inv.dist_eq {ht : HashTable} (hI : Inv ht) :
    ∀ i < ht.capacity, (ht.entries i).dist ≠ -1 →
    (ht.entries i).dist = (disp ht.capacity i (home ht.capacity (ht.entries i).key) : Int) :=
  hI.einv.dist_eq

theorem Inv.keylen {ht : HashTable} (hI : Inv ht) :
    ∀ i < ht.capacity, (ht.entries i).dist ≠ -1 → (ht.entries i).key.length = ht.key_size :=
  hI.einv.keylen

theorem Inv.distinct {ht : HashTable} (hI : Inv ht) :
    ∀ i < ht.capacity, ∀ j < ht.capacity, (ht.entries i).dist ≠ -1 →
    (ht.entries j).dist ≠ -1 → (ht.entries i).key = (ht.entries j).key → i = j :=
  hI.einv.distinct

theorem Inv.chain {ht : HashTable} (hI : Inv ht) :
    ∀ i < ht.capacity, (ht.entries i).dist ≠ -1 → 0 < (ht.entries i).dist →
    (ht.entries ((i + ht.capacity - 1) % ht.capacity)).dist ≠ -1 ∧
    (ht.entries i).dist ≤ (ht.entries ((i + ht.capacity - 1) % ht.capacity)).dist + 1 :=
  hI.einv.chain

/-! ## Arithmetic and bookkeeping helpers -/

theorem mask_eq_mod {cap : Nat} (m : Nat) (hm : cap = 2 ^ m) (x : Nat) :
    x &&& (cap - 1) = x % cap := by
  subst hm; exact Nat.and_pow_two_sub_one_eq_mod x m

theorem home_lt {cap : Nat} (hc : 0 < cap) (k : List Nat) : home cap k < cap :=
  Nat.mod_lt _ hc

theorem disp_lt {cap : Nat} (hc : 0 < cap) (i h : Nat) : disp cap i h < cap :=
  Nat.mod_lt _ hc

theorem disp_cases {cap i h : Nat} (hi : i < cap) (hh : h < cap) :
    disp cap i h = if h ≤ i then i - h else i + cap - h := by
  unfold disp
  rcases le_or_lt h i with hle | hlt
  · have h1 : i + cap - h = (i - h) + cap := by omega
    simp [h1, Nat.add_mod_right, Nat.mod_eq_of_lt (by omega : i - h < cap), hle]
  · have h2 : i + cap - h < cap := by omega
    simp [Nat.mod_eq_of_lt h2, Nat.not_le.mpr hlt]

theorem disp_self {cap h : Nat} (hh : h < cap) : disp cap h h = 0 := by
  rw [disp_cases hh hh]; simp

theorem disp_inj {cap i j h : Nat} (hi : i < cap) (hj : j < cap) (hh : h < cap)
    (hd : disp cap i h = disp cap j h) : i = j := by
  rw [disp_cases hi hh, disp_cases hj hh] at hd
  rcases le_or_lt h i with h1 | h1 <;> rcases le_or_lt h j with h2 | h2 <;>
    simp [h1, h2, Nat.not_le.mpr, *] at hd <;> omega

theorem idx_eq_home_add_disp {cap i h : Nat} (hi : i < cap) (hh : h < cap) :
    i = (h + disp cap i h) % cap := by
  rw [disp_cases hi hh]
  rcases le_or_lt h i with h1 | h1
  · simp [h1, Nat.mod_eq_of_lt, show h + (i - h) = i by omega, hi]
  · have : h + (i + cap - h) = i + cap := by omega
    simp [Nat.not_le.mpr h1, this, Nat.add_mod_right, Nat.mod_eq_of_lt hi]

theorem succ_mod_lt {cap i : Nat} (hc : 0 < cap) : (i + 1) % cap < cap :=
  Nat.mod_lt _ hc

theorem succ_of_lt {cap i : Nat} (hi : i < cap) :
    (i + 1) % cap = if i + 1 = cap then 0 else i + 1 := by
  split_ifs with h
  · simp [h]
  · exact Nat.mod_eq_of_lt (by omega)

theorem pred_lt {cap i : Nat} (hc : 0 < cap) : (i + cap - 1) % cap < cap :=
  Nat.mod_lt _ hc

theorem pred_of_lt {cap i : Nat} (hi : i < cap) :
    (i + cap - 1) % cap = if i = 0 then cap - 1 else i - 1 := by
  split_ifs with h
  · subst h
    rw [Nat.zero_add]
    exact Nat.mod_eq_of_lt (by omega)
  · have h1 : i + cap - 1 = (i - 1) + cap := by omega
    rw [h1, Nat.add_mod_right]
    exact Nat.mod_eq_of_lt (by omega)

theorem disp_succ_eq {cap i h : Nat} (hi : i < cap) (hh : h < cap)
    (hlt : disp cap i h + 1 < cap) :
    disp cap ((i + 1) % cap) h = disp cap i h + 1 := by
  rw [succ_of_lt hi]
  by_cases h1 : i + 1 = cap
  · rw [if_pos h1, disp_cases (show (0:Nat) < cap by omega) hh]
    rw [disp_cases hi hh] at hlt ⊢
    split_ifs at * <;> omega
  · rw [if_neg h1, disp_cases (show i + 1 < cap by omega) hh]
    rw [disp_cases hi hh] at hlt ⊢
    split_ifs at * <;> omega

theorem disp_pred_eq {cap i h : Nat} (hi : i < cap) (hh : h < cap)
    (hpos : 0 < disp cap i h) :
    disp cap ((i + cap - 1) % cap) h = disp cap i h - 1 := by
  rw [pred_of_lt hi]
  by_cases h1 : i = 0
  · rw [if_pos h1, disp_cases (show cap - 1 < cap by omega) hh]
    rw [disp_cases hi hh] at hpos ⊢
    subst h1
    split_ifs at * <;> omega
  · rw [if_neg h1, disp_cases (show i - 1 < cap by omega) hh]
    rw [disp_cases hi hh] at hpos ⊢
    split_ifs at * <;> omega

theorem succ_pred {cap i : Nat} (hi : i < cap) :
    ((i + cap - 1) % cap + 1) % cap = i := by
  rw [pred_of_lt hi]
  split_ifs with h
  · subst h
    rw [Nat.sub_add_cancel (show 1 ≤ cap from by omega)]
    simp
  · rw [Nat.sub_add_cancel (show 1 ≤ i from by omega)]
    exact Nat.mod_eq_of_lt hi

theorem pred_succ {cap i : Nat} (hi : i < cap) :
    ((i + 1) % cap + cap - 1) % cap = i := by
  rw [succ_of_lt hi]
  split_ifs with h
  · rw [pred_of_lt (show (0:Nat) < cap by omega)]
    simp
    omega
  · rw [pred_of_lt (show i + 1 < cap by omega)]
    simp

theorem upd_same (E : Nat → Entry) (i : Nat) (e : Entry) : upd E i e i = e := by
  simp [upd]

theorem upd_ne (E : Nat → Entry) {i j : Nat} (e : Entry) (h : j ≠ i) :
    upd E i e j = E j := by
  simp [upd, h]

theorem countP_congr_of_eq {l : List Nat} {p q : Nat → Bool}
    (h : ∀ a ∈ l, p a = q a) : l.countP p = l.countP q := by
  induction l with
  | nil => rfl
  | cons a l ih =>
    rw [List.countP_cons, List.countP_cons, h a (by simp),
      ih (fun b hb => h b (by simp [hb]))]

theorem countP_update_true {l : List Nat} (p q : Nat → Bool) {i : Nat}
    (hnd : l.Nodup) (hm : i ∈ l) (hpq : ∀ a, a ≠ i → p a = q a)
    (hpi : p i = false) (hqi : q i = true) : l.countP q = l.countP p + 1 := by
  induction l with
  | nil => simp at hm
  | cons a l ih =>
    rw [List.countP_cons, List.countP_cons]
    rcases List.mem_cons.mp hm with h | h
    · subst h
      have heq : ∀ b ∈ l, p b = q b := by
        intro b hb
        exact hpq b (fun hbi => (List.nodup_cons.mp hnd).1 (hbi ▸ hb))
      rw [countP_congr_of_eq heq, hpi, hqi]
      simp
    · have hai : a ≠ i := fun hai => (List.nodup_cons.mp hnd).1 (hai ▸ h)
      rw [ih (List.nodup_cons.mp hnd).2 h, hpq a hai]
      split_ifs <;> omega

/-! ## Consequences of the invariant -/

theorem Inv.cap_pos {ht : HashTable} (hI : Inv ht) : 0 < ht.capacity := by
  have := hI.cap_ge; omega

theorem Inv.dist_nonneg {ht : HashTable} (hI : Inv ht) {i : Nat}
    (hi : i < ht.capacity) (ho : (ht.entries i).dist ≠ -1) :
    0 ≤ (ht.entries i).dist := by
  rw [hI.dist_eq i hi ho]; exact Int.ofNat_nonneg _

theorem Inv.dist_lt_cap {ht : HashTable} (hI : Inv ht) {i : Nat}
    (hi : i < ht.capacity) (ho : (ht.entries i).dist ≠ -1) :
    (ht.entries i).dist < (ht.capacity : Int) := by
  rw [hI.dist_eq i hi ho]
  exact_mod_cast disp_lt hI.cap_pos i _

/-! ## The probe chain: along the walk toward an occupied slot every
slot is occupied with distance at least the probe counter, so the
early-exit scan of `ht_find`, `ht_insert` and `ht_delete` cannot stop
or swap before reaching it. -/

theorem mod_pred_back {cap j s : Nat} (hc : 0 < cap) (hs : s < cap) :
    ((j + cap - s) % cap + cap - 1) % cap = (j + cap - (s + 1)) % cap := by
  have h1 : (j + cap - s) % cap + cap - 1 = (j + cap - s) % cap + (cap - 1) := by omega
  rw [h1, Nat.mod_add_mod]
  have h2 : j + cap - s + (cap - 1) = (j + cap - (s + 1)) + cap := by omega
  rw [h2, Nat.add_mod_right]

theorem back_eq_forward {cap h d s j : Nat} (hs : s ≤ d) (hdc : d < cap)
    (hj : j = (h + d) % cap) :
    (j + cap - s) % cap = (h + (d - s)) % cap := by
  subst hj
  have h1 : (h + d) % cap + cap - s = (h + d) % cap + (cap - s) := by omega
  rw [h1, Nat.mod_add_mod]
  have h2 : h + d + (cap - s) = (h + (d - s)) + cap := by omega
  rw [h2, Nat.add_mod_right]

theorem chain_walk {ht : HashTable} (hI : Inv ht) {j : Nat}
    (hj : j < ht.capacity) (ho : (ht.entries j).dist ≠ -1) :
    ∀ s, s ≤ disp ht.capacity j (home ht.capacity (ht.entries j).key) →
      (ht.entries ((j + ht.capacity - s) % ht.capacity)).dist ≠ -1 ∧
      disp ht.capacity ((j + ht.capacity - s) % ht.capacity)
          (home ht.capacity (ht.entries j).key)
        = disp ht.capacity j (home ht.capacity (ht.entries j).key) - s ∧
      ((disp ht.capacity j (home ht.capacity (ht.entries j).key) - s : Nat) : Int)
        ≤ (ht.entries ((j + ht.capacity - s) % ht.capacity)).dist := by
  intro s
  induction s with
  | zero =>
    intro _
    have hpos : j + ht.capacity - 0 = j + ht.capacity := by omega
    rw [hpos, Nat.add_mod_right, Nat.mod_eq_of_lt hj]
    refine ⟨ho, by omega, ?_⟩
    rw [hI.dist_eq j hj ho]
    simp
  | succ s ih =>
    intro hs1
    have hs : s ≤ disp ht.capacity j (home ht.capacity (ht.entries j).key) := by omega
    obtain ⟨hocc, hdisp, hdist⟩ := ih hs
    set d := disp ht.capacity j (home ht.capacity (ht.entries j).key) with hd
    set y := (j + ht.capacity - s) % ht.capacity with hy
    have hylt : y < ht.capacity := Nat.mod_lt _ hI.cap_pos
    have hdcap : d < ht.capacity := disp_lt hI.cap_pos _ _
    have hslt : s < ht.capacity := by omega
    have hdsy : 0 < (ht.entries y).dist := by
      have : (1 : Int) ≤ ((d - s : Nat) : Int) := by
        have : 1 ≤ d - s := by omega
        exact_mod_cast this
      omega
    obtain ⟨hocc2, hch⟩ := hI.chain y hylt hocc hdsy
    have hpred : (y + ht.capacity - 1) % ht.capacity = (j + ht.capacity - (s + 1)) % ht.capacity :=
      mod_pred_back hI.cap_pos hslt
    have hkeyy : home ht.capacity (ht.entries j).key < ht.capacity := home_lt hI.cap_pos _
    have hdispy : 0 < disp ht.capacity y (home ht.capacity (ht.entries j).key) := by omega
    have hdp : disp ht.capacity ((y + ht.capacity - 1) % ht.capacity)
        (home ht.capacity (ht.entries j).key)
        = disp ht.capacity y (home ht.capacity (ht.entries j).key) - 1 :=
      disp_pred_eq hylt hkeyy hdispy
    rw [hpred] at hocc2 hch hdp
    refine ⟨hocc2, ?_, ?_⟩
    · rw [hdp, hdisp]; omega
    · have hcast : ((d - (s + 1) : Nat) : Int) = ((d - s : Nat) : Int) - 1 := by
        have h1 : 1 ≤ d - s := by omega
        omega
      omega

theorem findLoop_reach {ht : HashTable} (hI : Inv ht) {j : Nat} {k v : List Nat}
    (hst : storedAt ht j k v) :
    ∀ n t fuel, t + n = disp ht.capacity j (home ht.capacity k) → n < fuel →
      findLoop ht.capacity fuel ht.entries ((home ht.capacity k + t) % ht.capacity)
        (t : Int) k = some (some v) := by
  obtain ⟨hj, ho, hk, hv⟩ := hst
  have hkey : (ht.entries j).key = k := hk
  have hh : home ht.capacity k < ht.capacity := home_lt hI.cap_pos _
  have hdcap : disp ht.capacity j (home ht.capacity k) < ht.capacity := disp_lt hI.cap_pos _ _
  have hjd : j = (home ht.capacity k + disp ht.capacity j (home ht.capacity k)) % ht.capacity := by
    exact idx_eq_home_add_disp hj hh
  intro n
  induction n with
  | zero =>
    intro t fuel ht0 hf
    simp only [Nat.add_zero] at ht0
    obtain ⟨fl, rfl⟩ : ∃ fl, fuel = fl + 1 := ⟨fuel - 1, by omega⟩
    rw [ht0, ← hjd]
    show findLoop ht.capacity (fl + 1) ht.entries j _ k = some (some v)
    unfold findLoop
    have hdist : (ht.entries j).dist
        = ((disp ht.capacity j (home ht.capacity k) : Nat) : Int) := by
      rw [hI.dist_eq j hj ho, hkey]
    simp only [hdist]
    rw [if_neg (by omega), if_neg (by omega), hkey, if_pos rfl, hv]
  | succ n ih =>
    intro t fuel ht0 hf
    obtain ⟨fl, rfl⟩ : ∃ fl, fuel = fl + 1 := ⟨fuel - 1, by omega⟩
    set d := disp ht.capacity j (home ht.capacity k) with hd
    have hts : t + 1 + n = d := by omega
    have htd : t < d := by omega
    have hback := chain_walk hI hj ho (d - t) (by rw [hkey, ← hd]; omega)
    rw [hkey, ← hd] at hback
    rw [back_eq_forward (by omega) hdcap hjd] at hback
    have hdds : d - (d - t) = t := by omega
    rw [hdds] at hback
    obtain ⟨hocc, hdisp, hdist⟩ := hback
    set x := (home ht.capacity k + t) % ht.capacity with hx
    have hxlt : x < ht.capacity := Nat.mod_lt _ hI.cap_pos
    show findLoop ht.capacity (fl + 1) ht.entries x (t : Int) k = some (some v)
    unfold findLoop
    have hkx : (ht.entries x).key ≠ k := by
      intro hkx
      have hxj : x = j := hI.distinct x hxlt j hj hocc ho (by rw [hkx, hkey])
      rw [hxj] at hdisp
      omega
    rw [if_neg hocc, if_neg (by omega), if_neg hkx]
    have hnext : (x + 1) &&& (ht.capacity - 1) = (home ht.capacity k + (t + 1)) % ht.capacity := by
      obtain ⟨m, hm⟩ := hI.cap_pow
      rw [mask_eq_mod m hm, hx, Nat.mod_add_mod, Nat.add_assoc]
    rw [hnext]
    have hcast : (t : Int) + 1 = ((t + 1 : Nat) : Int) := by omega
    rw [hcast]
    exact ih (t + 1) fl hts (by omega)

theorem ht_find_stored {ht : HashTable} (hI : Inv ht) {j : Nat} {k v : List Nat}
    (hst : storedAt ht j k v) :
    ht_find (ht.capacity + 1) ht k = some (some v) := by
  unfold ht_find
  obtain ⟨m, hm⟩ := hI.cap_pow
  rw [mask_eq_mod m hm]
  have hh : home ht.capacity k < ht.capacity := home_lt hI.cap_pos _
  have h0 : fnv1 k % ht.capacity = (home ht.capacity k + 0) % ht.capacity := by
    rw [Nat.add_zero, Nat.mod_eq_of_lt hh]
    rfl
  rw [h0]
  have : ((0 : Nat) : Int) = (0 : Int) := rfl
  rw [← this]
  exact findLoop_reach hI hst (disp ht.capacity j (home ht.capacity k)) 0 (ht.capacity + 1)
    (by omega) (by have := disp_lt hI.cap_pos j (home ht.capacity k); omega)

theorem findLoop_absent {ht : HashTable} (hI : Inv ht) {k : List Nat}
    (habs : ∀ i < ht.capacity, (ht.entries i).dist ≠ -1 → (ht.entries i).key ≠ k) :
    ∀ fuel i t, i < ht.capacity → 0 < fuel → ht.capacity < t + fuel →
      findLoop ht.capacity fuel ht.entries i (t : Int) k = some none := by
  intro fuel
  induction fuel with
  | zero => intro i t _ h0 _; omega
  | succ fl ih =>
    intro i t hi _ hcap
    unfold findLoop
    by_cases he : (ht.entries i).dist = -1
    · rw [if_pos he]
    · rw [if_neg he]
      by_cases hp : (t : Int) > (ht.entries i).dist
      · rw [if_pos hp]
      · rw [if_neg hp]
        rw [if_neg (habs i hi he)]
        have hlt : (ht.entries i).dist < (ht.capacity : Int) := hI.dist_lt_cap hi he
        have htc : t < ht.capacity := by
          have : (t : Int) ≤ (ht.entries i).dist := by omega
          have h2 : (t : Int) < (ht.capacity : Int) := by omega
          exact_mod_cast h2
        obtain ⟨m, hm⟩ := hI.cap_pow
        rw [mask_eq_mod m hm]
        have hcast : (t : Int) + 1 = ((t + 1 : Nat) : Int) := by omega
        rw [hcast]
        exact ih ((i + 1) % ht.capacity) (t + 1) (Nat.mod_lt _ hI.cap_pos) (by omega) (by omega)

theorem ht_find_absent {ht : HashTable} (hI : Inv ht) {k : List Nat}
    (habs : ¬ hasKey ht k) :
    ht_find (ht.capacity + 1) ht k = some none := by
  unfold ht_find
  obtain ⟨m, hm⟩ := hI.cap_pow
  rw [mask_eq_mod m hm]
  have hpt : ∀ i < ht.capacity, (ht.entries i).dist ≠ -1 → (ht.entries i).key ≠ k := by
    intro i hi ho hk
    exact habs ⟨i, (ht.entries i).val, hi, ho, hk, rfl⟩
  have : ((0 : Nat) : Int) = (0 : Int) := rfl
  rw [← this]
  exact findLoop_absent hI hpt (ht.capacity + 1) _ 0 (Nat.mod_lt _ hI.cap_pos) (by omega)
    (by omega)

/-! ## Bookkeeping for the insertion walk -/

/-- Some slot of the raw array holds the record `(k2, v2)`. -/
def pairAt (cap : Nat) (E : Nat → Entry) (k2 v2 : List Nat) : Prop :=
  ∃ j, j < cap ∧ (E j).dist ≠ -1 ∧ (E j).key = k2 ∧ (E j).val = v2

theorem stored_iff_pairAt (ht : HashTable) (k v : List Nat) :
    stored ht k v ↔ pairAt ht.capacity ht.entries k v := by
  constructor
  · rintro ⟨i, hi, ho, hk, hv⟩; exact ⟨i, hi, ho, hk, hv⟩
  · rintro ⟨i, hi, ho, hk, hv⟩; exact ⟨i, hi, ho, hk, hv⟩

theorem pairAt_iff_upd {cap : Nat} {E : Nat → Entry} {i : Nat} (hi : i < cap) (e : Entry)
    (he : e.dist ≠ -1) (k2 v2 : List Nat) :
    pairAt cap (upd E i e) k2 v2 ↔
      ((k2 = e.key ∧ v2 = e.val) ∨
       ∃ j, j < cap ∧ j ≠ i ∧ (E j).dist ≠ -1 ∧ (E j).key = k2 ∧ (E j).val = v2) := by
  constructor
  · rintro ⟨j, hj, ho, hk, hv⟩
    by_cases hji : j = i
    · subst hji
      rw [upd_same] at hk hv
      exact Or.inl ⟨hk.symm, hv.symm⟩
    · rw [upd_ne E e hji] at ho hk hv
      exact Or.inr ⟨j, hj, hji, ho, hk, hv⟩
  · rintro (⟨hk, hv⟩ | ⟨j, hj, hji, ho, hk, hv⟩)
    · exact ⟨i, hi, by rw [upd_same]; exact he, by rw [upd_same, hk], by rw [upd_same, hv]⟩
    · exact ⟨j, hj, by rw [upd_ne E e hji]; exact ho, by rw [upd_ne E e hji]; exact hk,
        by rw [upd_ne E e hji]; exact hv⟩

theorem pairAt_iff_split {cap : Nat} {E : Nat → Entry} {i : Nat} (hi : i < cap)
    (ho : (E i).dist ≠ -1) (k2 v2 : List Nat) :
    pairAt cap E k2 v2 ↔
      ((k2 = (E i).key ∧ v2 = (E i).val) ∨
       ∃ j, j < cap ∧ j ≠ i ∧ (E j).dist ≠ -1 ∧ (E j).key = k2 ∧ (E j).val = v2) := by
  constructor
  · rintro ⟨j, hj, hoj, hk, hv⟩
    by_cases hji : j = i
    · subst hji; exact Or.inl ⟨hk.symm, hv.symm⟩
    · exact Or.inr ⟨j, hj, hji, hoj, hk, hv⟩
  · rintro (⟨hk, hv⟩ | ⟨j, hj, hji, hoj, hk, hv⟩)
    · exact ⟨i, hi, ho, hk.symm, hv.symm⟩
    · exact ⟨j, hj, hoj, hk, hv⟩

theorem pairAt_iff_split_empty (cap : Nat) {E : Nat → Entry} (i : Nat)
    (ho : (E i).dist = -1) (k2 v2 : List Nat) :
    pairAt cap E k2 v2 ↔
      ∃ j, j < cap ∧ j ≠ i ∧ (E j).dist ≠ -1 ∧ (E j).key = k2 ∧ (E j).val = v2 := by
  constructor
  · rintro ⟨j, hj, hoj, hk, hv⟩
    refine ⟨j, hj, ?_, hoj, hk, hv⟩
    intro hji; subst hji; exact hoj ho
  · rintro ⟨j, hj, _, hoj, hk, hv⟩
    exact ⟨j, hj, hoj, hk, hv⟩

theorem cnt_upd_occ {cap : Nat} {E : Nat → Entry} {i : Nat} (hi : i < cap) (e : Entry)
    (ho : (E i).dist ≠ -1) (he : e.dist ≠ -1) :
    (List.range cap).countP (fun j => ((upd E i e) j).dist != -1)
      = (List.range cap).countP (fun j => (E j).dist != -1) := by
  apply countP_congr_of_eq
  intro a _
  by_cases hai : a = i
  · subst hai
    rw [upd_same]
    have h1 : (e.dist != -1) = true := by simp [he]
    have h2 : (((E a).dist != -1) : Bool) = true := by simp [ho]
    rw [h1, h2]
  · rw [upd_ne E e hai]

theorem cnt_upd_fill {cap : Nat} {E : Nat → Entry} {i : Nat} (hi : i < cap) (e : Entry)
    (ho : (E i).dist = -1) (he : e.dist ≠ -1) :
    (List.range cap).countP (fun j => ((upd E i e) j).dist != -1)
      = (List.range cap).countP (fun j => (E j).dist != -1) + 1 := by
  apply countP_update_true _ _ (List.nodup_range cap) (List.mem_range.mpr hi)
  · intro a hai
    rw [upd_ne E e hai]
  · simp [ho]
  · rw [upd_same]; simp [he]

theorem add_mod_ne_self {cap i f : Nat} (hi : i < cap) (hf0 : 0 < f) (hf : f < cap) :
    (i + f) % cap ≠ i := by
  rcases Nat.lt_or_ge (i + f) cap with h | h
  · rw [Nat.mod_eq_of_lt h]; omega
  · have h2 : i + f - cap < cap := by omega
    have h3 : i + f = (i + f - cap) + cap := by omega
    rw [h3, Nat.add_mod_right, Nat.mod_eq_of_lt h2]
    omega

/-! ## The update path: inserting a key that is already stored reaches
its slot without swapping and overwrites only the value. -/

theorem placeLoop_update {ht : HashTable} (hI : Inv ht) {j : Nat} {k w : List Nat}
    (hst : storedAt ht j k w) (v : List Nat) :
    ∀ n t fuel, t + n = disp ht.capacity j (home ht.capacity k) → n < fuel →
      placeLoop ht.capacity fuel ht.entries ((home ht.capacity k + t) % ht.capacity)
        (t : Int) k v
        = some (upd ht.entries j ⟨(ht.entries j).dist, (ht.entries j).key, v⟩, false) := by
  obtain ⟨hj, ho, hk, hv⟩ := hst
  have hkey : (ht.entries j).key = k := hk
  have hh : home ht.capacity k < ht.capacity := home_lt hI.cap_pos _
  have hdcap : disp ht.capacity j (home ht.capacity k) < ht.capacity := disp_lt hI.cap_pos _ _
  have hjd : j = (home ht.capacity k + disp ht.capacity j (home ht.capacity k)) % ht.capacity :=
    idx_eq_home_add_disp hj hh
  intro n
  induction n with
  | zero =>
    intro t fuel ht0 hf
    simp only [Nat.add_zero] at ht0
    obtain ⟨fl, rfl⟩ : ∃ fl, fuel = fl + 1 := ⟨fuel - 1, by omega⟩
    rw [ht0, ← hjd]
    show placeLoop ht.capacity (fl + 1) ht.entries j _ k v = _
    unfold placeLoop
    have hdist : (ht.entries j).dist
        = ((disp ht.capacity j (home ht.capacity k) : Nat) : Int) := by
      rw [hI.dist_eq j hj ho, hkey]
    rw [if_neg ho, hkey, if_pos rfl]
  | succ n ih =>
    intro t fuel ht0 hf
    obtain ⟨fl, rfl⟩ : ∃ fl, fuel = fl + 1 := ⟨fuel - 1, by omega⟩
    set d := disp ht.capacity j (home ht.capacity k) with hd
    have hts : t + 1 + n = d := by omega
    have htd : t < d := by omega
    have hback := chain_walk hI hj ho (d - t) (by rw [hkey, ← hd]; omega)
    rw [hkey, ← hd] at hback
    rw [back_eq_forward (by omega) hdcap hjd] at hback
    have hdds : d - (d - t) = t := by omega
    rw [hdds] at hback
    obtain ⟨hocc, hdisp, hdist⟩ := hback
    set x := (home ht.capacity k + t) % ht.capacity with hx
    have hxlt : x < ht.capacity := Nat.mod_lt _ hI.cap_pos
    show placeLoop ht.capacity (fl + 1) ht.entries x (t : Int) k v = _
    unfold placeLoop
    have hkx : (ht.entries x).key ≠ k := by
      intro hkx
      have hxj : x = j := hI.distinct x hxlt j hj hocc ho (by rw [hkx, hkey])
      rw [hxj] at hdisp
      omega
    rw [if_neg hocc, if_neg hkx, if_neg (by omega)]
    have hnext : (x + 1) &&& (ht.capacity - 1)
        = (home ht.capacity k + (t + 1)) % ht.capacity := by
      obtain ⟨m, hm⟩ := hI.cap_pow
      rw [mask_eq_mod m hm, hx, Nat.mod_add_mod, Nat.add_assoc]
    rw [hnext]
    have hcast : (t : Int) + 1 = ((t + 1 : Nat) : Int) := by omega
    rw [hcast]
    exact ih (t + 1) fl hts (by omega)

theorem pred_ne_self {cap i : Nat} (hc : 2 ≤ cap) (hi : i < cap) :
    (i + cap - 1) % cap ≠ i := by
  rw [pred_of_lt hi]; split_ifs <;> omega

theorem succ_ne_self {cap i : Nat} (hc : 2 ≤ cap) (hi : i < cap) :
    (i + 1) % cap ≠ i := by
  rw [succ_of_lt hi]; split_ifs <;> omega

theorem eq_succ_of_pred_eq {cap i j : Nat} (hj : j < cap) (h : (j + cap - 1) % cap = i) :
    j = (i + 1) % cap := by
  rw [← h, succ_pred hj]

/-! ## The fresh-key path of the insertion walk.

`PlaceInv` is the loop invariant of the probe loop when the carried key
is not stored anywhere: the array keeps the structural invariant, the
probe counter is exactly the carried key's displacement at the current
slot, the predecessor can absorb a placement at the current probe
(`frontier`), the multiset of records of the array plus the carried
pair equals that of the original array plus the inserted pair, and the
occupancy count is unchanged so far. -/
structure PlaceInv (cap ks : Nat) (E0 : Nat → Entry) (k v : List Nat)
    (E : Nat → Entry) (i : Nat) (p : Int) (kc vc : List Nat) : Prop where
  hi : i < cap
  hp0 : 0 ≤ p
  einv : EInv cap ks E
  klenc : kc.length = ks
  phome : p = (disp cap i (home cap kc) : Int)
  frontier : p = 0 ∨ ((E ((i + cap - 1) % cap)).dist ≠ -1 ∧
      p ≤ (E ((i + cap - 1) % cap)).dist + 1)
  fresh : ∀ j < cap, (E j).dist ≠ -1 → (E j).key ≠ kc
  modelx : ∀ k2 v2, ((k2 = kc ∧ v2 = vc) ∨ pairAt cap E k2 v2) ↔
      ((k2 = k ∧ v2 = v) ∨ pairAt cap E0 k2 v2)
  cnt : (List.range cap).countP (fun j => (E j).dist != -1)
      = (List.range cap).countP (fun j => (E0 j).dist != -1)

/-- What holds of the array after the fresh-key walk has placed its
record: invariant, one more occupied slot, and the records are exactly
the original ones plus `(k, v)`. -/
structure PlacePost (cap ks : Nat) (E0 : Nat → Entry) (k v : List Nat)
    (E1 : Nat → Entry) : Prop where
  einv : EInv cap ks E1
  model : ∀ k2 v2, pairAt cap E1 k2 v2 ↔
      ((k2 = k ∧ v2 = v) ∨ pairAt cap E0 k2 v2)
  cnt : (List.range cap).countP (fun j => (E1 j).dist != -1)
      = (List.range cap).countP (fun j => (E0 j).dist != -1) + 1

theorem placeLoop_fresh {cap ks : Nat} (m : Nat) (hm : cap = 2 ^ m) (hc2 : 2 ≤ cap)
    (E0 : Nat → Entry) (k v : List Nat) :
    ∀ fuel E i p kc vc f, PlaceInv cap ks E0 k v E i p kc vc →
      (E ((i + f) % cap)).dist = -1 → p.toNat + f < cap → f < fuel →
      ∃ E1, placeLoop cap fuel E i p kc vc = some (E1, true) ∧
        PlacePost cap ks E0 k v E1 := by
  intro fuel
  induction fuel with
  | zero =>
    intro _ _ _ _ _ f _ _ _ hf
    omega
  | succ fl ih =>
    intro E i p kc vc f hPI hempty hpf hffuel
    obtain ⟨hi, hp0, heinv, hklen, hphome, hfrontier, hfresh, hmodelx, hcnt⟩ := hPI
    have hhc : home cap kc < cap := home_lt (by omega) kc
    have hpcap : p.toNat < cap := by omega
    have hsucc_lt : (i + 1) % cap < cap := Nat.mod_lt _ (by omega)
    have hmask : (i + 1) &&& (cap - 1) = (i + 1) % cap := mask_eq_mod m hm (i + 1)
    unfold placeLoop
    by_cases hocc : (E i).dist = -1
    · -- stop at the empty slot: place the carried record with distance p
      rw [if_pos hocc]
      refine ⟨upd E i ⟨p, kc, vc⟩, rfl, ?_⟩
      have hpne : (p : Int) ≠ -1 := by omega
      constructor
      · constructor
        · intro j hj hoj
          by_cases hji : j = i
          · subst hji
            rw [upd_same] at hoj ⊢
            exact hphome
          · rw [upd_ne E _ hji] at hoj ⊢
            exact heinv.dist_eq j hj hoj
        · intro j hj hoj
          by_cases hji : j = i
          · subst hji; rw [upd_same]; exact hklen
          · rw [upd_ne E _ hji] at hoj ⊢; exact heinv.keylen j hj hoj
        · intro j1 hj1 j2 hj2 ho1 ho2 hkeq
          by_cases h1 : j1 = i <;> by_cases h2 : j2 = i
          · rw [h1, h2]
          · subst h1
            rw [upd_same] at hkeq
            rw [upd_ne E _ h2] at ho2 hkeq
            exact absurd hkeq.symm (hfresh j2 hj2 ho2)
          · subst h2
            rw [upd_same] at hkeq
            rw [upd_ne E _ h1] at ho1 hkeq
            exact absurd hkeq (hfresh j1 hj1 ho1)
          · rw [upd_ne E _ h1] at ho1 hkeq
            rw [upd_ne E _ h2] at ho2 hkeq
            exact heinv.distinct j1 hj1 j2 hj2 ho1 ho2 hkeq
        · intro j hj hoj hdj
          by_cases hji : j = i
          · subst hji
            rw [upd_same] at hdj ⊢
            have hdj2 : 0 < p := hdj
            rcases hfrontier with h0 | ⟨hopred, hbnd⟩
            · omega
            · have hpnei : (j + cap - 1) % cap ≠ j := pred_ne_self hc2 hj
              rw [upd_ne E _ hpnei]
              exact ⟨hopred, hbnd⟩
          · rw [upd_ne E _ hji] at hoj hdj
            by_cases hpred : (j + cap - 1) % cap = i
            · -- the old chain at j needed slot i occupied, but it was empty
              have := heinv.chain j hj hoj hdj
              rw [hpred] at this
              exact absurd hocc this.1
            · rw [upd_ne E _ hji, upd_ne E _ hpred]
              exact heinv.chain j hj hoj hdj
      · intro k2 v2
        rw [pairAt_iff_upd hi _ (by simpa using hpne) k2 v2]
        have hsplit := pairAt_iff_split_empty cap i hocc k2 v2
        have hmx := hmodelx k2 v2
        rw [hsplit] at hmx
        exact hmx
      · exact (cnt_upd_fill hi _ hocc (by simpa using hpne)).trans (by rw [hcnt])
    · rw [if_neg hocc]
      have hf0 : f ≠ 0 := by
        intro h0
        subst h0
        rw [Nat.add_zero, Nat.mod_eq_of_lt hi] at hempty
        exact hocc hempty
      have hkne : (E i).key ≠ kc := hfresh i hi hocc
      rw [if_neg hkne]
      have hD := heinv.dist_eq i hi hocc
      have hD0 : 0 ≤ (E i).dist := by rw [hD]; exact Int.ofNat_nonneg _
      have hfcap : f < cap := by omega
      have hnepos : (i + f) % cap ≠ i := add_mod_ne_self hi (by omega) hfcap
      have hshift : ((i + 1) % cap + (f - 1)) % cap = (i + f) % cap := by
        rw [Nat.mod_add_mod]
        congr 1
        omega
      by_cases hswap : (E i).dist < p
      · -- Robin Hood swap: leave the carried record here, carry the resident on
        rw [if_pos hswap, hmask]
        have hp1 : 0 < p := by omega
        have hpne : (p : Int) ≠ -1 := by omega
        have hdisp_i : (disp cap i (home cap kc) : Int) = p := hphome.symm
        have hdispD : (E i).dist = (disp cap i (home cap (E i).key) : Int) := hD
        have hDlt : (E i).dist.toNat + 1 < cap := by omega
        have hDdisp : disp cap i (home cap (E i).key) + 1 < cap := by
          have : ((disp cap i (home cap (E i).key) : Nat) : Int) = (E i).dist := hD.symm
          omega
        have hsucc_disp := disp_succ_eq hi (home_lt (show 0 < cap by omega) (E i).key) hDdisp
        refine ih (upd E i ⟨p, kc, vc⟩) ((i + 1) % cap) ((E i).dist + 1) (E i).key (E i).val
          (f - 1) ⟨hsucc_lt, by omega, ?_, heinv.keylen i hi hocc, ?_, ?_, ?_, ?_, ?_⟩ ?_ ?_ ?_
        · -- EInv of the swapped array
          constructor
          · intro j hj hoj
            by_cases hji : j = i
            · subst hji
              rw [upd_same] at hoj ⊢
              exact hphome
            · rw [upd_ne E _ hji] at hoj ⊢
              exact heinv.dist_eq j hj hoj
          · intro j hj hoj
            by_cases hji : j = i
            · subst hji; rw [upd_same]; exact hklen
            · rw [upd_ne E _ hji] at hoj ⊢; exact heinv.keylen j hj hoj
          · intro j1 hj1 j2 hj2 ho1 ho2 hkeq
            by_cases h1 : j1 = i <;> by_cases h2 : j2 = i
            · rw [h1, h2]
            · subst h1
              rw [upd_same] at hkeq
              rw [upd_ne E _ h2] at ho2 hkeq
              exact absurd hkeq.symm (hfresh j2 hj2 ho2)
            · subst h2
              rw [upd_same] at hkeq
              rw [upd_ne E _ h1] at ho1 hkeq
              exact absurd hkeq (hfresh j1 hj1 ho1)
            · rw [upd_ne E _ h1] at ho1 hkeq
              rw [upd_ne E _ h2] at ho2 hkeq
              exact heinv.distinct j1 hj1 j2 hj2 ho1 ho2 hkeq
          · intro j hj hoj hdj
            by_cases hji : j = i
            · subst hji
              rw [upd_same] at hdj ⊢
              rcases hfrontier with h0 | ⟨hopred, hbnd⟩
              · exact absurd h0 (by omega)
              · have hpnei : (j + cap - 1) % cap ≠ j := pred_ne_self hc2 hj
                rw [upd_ne E _ hpnei]
                exact ⟨hopred, hbnd⟩
            · rw [upd_ne E _ hji] at hoj hdj
              by_cases hpred : (j + cap - 1) % cap = i
              · have hold := heinv.chain j hj hoj hdj
                rw [hpred] at hold
                rw [hpred, upd_same, upd_ne E _ hji]
                refine ⟨by simpa using hpne, ?_⟩
                show (E j).dist ≤ p + 1
                have h2 : (E j).dist ≤ (E i).dist + 1 := hold.2
                omega
              · rw [upd_ne E _ hji, upd_ne E _ hpred]
                exact heinv.chain j hj hoj hdj
        · -- probe counter is the displacement of the newly carried key
          rw [hsucc_disp]
          push_cast
          omega
        · -- frontier at the successor: the just-written slot
          refine Or.inr ?_
          rw [pred_succ hi, upd_same]
          refine ⟨by simpa using hpne, ?_⟩
          show (E i).dist + 1 ≤ p + 1
          omega
        · -- the newly carried key occurs nowhere in the swapped array
          intro j hj hoj
          by_cases hji : j = i
          · subst hji
            rw [upd_same]
            exact fun h => hkne h.symm
          · rw [upd_ne E _ hji] at hoj ⊢
            intro hkeq
            exact hji (heinv.distinct j hj i hi hoj hocc hkeq)
        · -- record multiset is unchanged by the swap
          intro k2 v2
          rw [pairAt_iff_upd hi _ (by simpa using hpne) k2 v2]
          have hsplit := pairAt_iff_split hi hocc k2 v2
          have hmx := hmodelx k2 v2
          rw [hsplit] at hmx
          rw [← hmx]
          exact or_left_comm
        · exact (cnt_upd_occ hi _ hocc (by simpa using hpne)).trans hcnt
        · rw [hshift, upd_ne E _ hnepos]
          exact hempty
        · omega
        · omega
      · -- keep probing with the same carried record
        rw [if_neg hswap, hmask]
        have hple : p ≤ (E i).dist := by omega
        have hdisp1 : disp cap i (home cap kc) + 1 < cap := by omega
        have hsucc_disp := disp_succ_eq hi hhc hdisp1
        refine ih E ((i + 1) % cap) (p + 1) kc vc (f - 1)
          ⟨hsucc_lt, by omega, heinv, hklen, ?_, ?_, hfresh, hmodelx, hcnt⟩ ?_ ?_ ?_
        · rw [hsucc_disp]
          push_cast
          omega
        · refine Or.inr ?_
          rw [pred_succ hi]
          exact ⟨hocc, by omega⟩
        · rw [hshift]
          exact hempty
        · omega
        · omega

/-! ## Growth: `next_power_of_two` on powers of two, and the
reinsertion sweep of `ht_resize`. -/

theorem nptLoop_pow (k : Nat) : ∀ fuel j, j ≤ k → k - j ≤ fuel →
    nptLoop fuel (2 ^ k) (2 ^ j) = 2 ^ k := by
  intro fuel
  induction fuel with
  | zero =>
    intro j hj hf
    have : j = k := by omega
    subst this
    rfl
  | succ fl ih =>
    intro j hj hf
    unfold nptLoop
    by_cases h : (2:Nat) ^ j < 2 ^ k
    · rw [if_pos h]
      have hjk : j < k := by
        by_contra hc
        have : j = k := by omega
        subst this
        omega
      have h2 : 2 * 2 ^ j = 2 ^ (j + 1) := by ring
      rw [h2]
      exact ih (j + 1) (by omega) (by omega)
    · rw [if_neg h]
      have : k ≤ j := by
        by_contra hc
        exact h (Nat.pow_lt_pow_right (by omega) (by omega))
      have : j = k := by omega
      rw [this]

theorem npt_pow (k : Nat) : next_power_of_two (2 ^ k) = 2 ^ k := by
  have h0 : (2:Nat) ^ 0 = 1 := rfl
  have := nptLoop_pow k (2 ^ k) 0 (Nat.zero_le k)
    (by have := Nat.lt_two_pow k; omega)
  rw [h0] at this
  exact this

theorem count_le_cap (cap : Nat) (E : Nat → Entry) :
    (List.range cap).countP (fun j => (E j).dist != -1) ≤ cap := by
  have h1 : (List.range cap).countP (fun j => (E j).dist != -1) ≤ (List.range cap).length :=
    List.countP_le_length (fun j => (E j).dist != -1)
  simpa using h1

theorem exists_empty_of_count_lt {cap : Nat} {E : Nat → Entry}
    (h : (List.range cap).countP (fun j => (E j).dist != -1) < cap) :
    ∃ j, j < cap ∧ (E j).dist = -1 := by
  by_contra hc
  push_neg at hc
  have hall : ∀ a ∈ List.range cap, (fun j => (E j).dist != -1) a = true := by
    intro a ha
    have := hc a (List.mem_range.mp ha)
    simpa using this
  have := List.countP_eq_length.mpr hall
  rw [this] at h
  simp at h

theorem all_occ_of_count_eq {cap : Nat} {E : Nat → Entry}
    (h : (List.range cap).countP (fun j => (E j).dist != -1) = cap) :
    ∀ j < cap, (E j).dist ≠ -1 := by
  intro j hj
  have hlen : ((List.range cap).length) = cap := List.length_range cap
  have hall := List.countP_eq_length.mp (by rw [h, hlen])
  have := hall j (List.mem_range.mpr hj)
  simpa using this

/-- On a full table holding no slot with the carried key, the probe loop
never terminates (it keeps swapping or stepping and never finds an empty
slot or a match): it exhausts any fuel. -/
theorem placeLoop_full_none {cap : Nat} (m : Nat) (hm : cap = 2 ^ m) :
    ∀ fuel E i p kc vc, i < cap → 0 ≤ p →
      (∀ j < cap, (E j).dist ≠ -1) →
      (∀ j < cap, 0 ≤ (E j).dist) →
      (∀ j1 < cap, ∀ j2 < cap, (E j1).key = (E j2).key → j1 = j2) →
      (∀ j < cap, (E j).key ≠ kc) →
      placeLoop cap fuel E i p kc vc = none := by
  intro fuel
  induction fuel with
  | zero => intro E i p kc vc _ _ _ _ _ _; rfl
  | succ fl ih =>
    intro E i p kc vc hi hp0 hfull hd0 hdistinct hfresh
    unfold placeLoop
    rw [if_neg (hfull i hi), if_neg (hfresh i hi), mask_eq_mod m hm]
    have hsucc : (i + 1) % cap < cap := Nat.mod_lt _ (by omega)
    by_cases hswap : (E i).dist < p
    · rw [if_pos hswap]
      apply ih _ _ _ _ _ hsucc (by have := hd0 i hi; omega)
      · intro j hj
        by_cases hji : j = i
        · subst hji
          rw [upd_same]
          intro hc
          have hpc : p = -1 := hc
          omega
        · rw [upd_ne E _ hji]; exact hfull j hj
      · intro j hj
        by_cases hji : j = i
        · subst hji; rw [upd_same]; exact hp0
        · rw [upd_ne E _ hji]; exact hd0 j hj
      · intro j1 hj1 j2 hj2 hkeq
        by_cases h1 : j1 = i <;> by_cases h2 : j2 = i
        · rw [h1, h2]
        · subst h1
          rw [upd_same] at hkeq
          rw [upd_ne E _ h2] at hkeq
          exact absurd hkeq.symm (hfresh j2 hj2)
        · subst h2
          rw [upd_same] at hkeq
          rw [upd_ne E _ h1] at hkeq
          exact absurd hkeq (hfresh j1 hj1)
        · rw [upd_ne E _ h1, upd_ne E _ h2] at hkeq
          exact hdistinct j1 hj1 j2 hj2 hkeq
      · intro j hj
        by_cases hji : j = i
        · subst hji
          rw [upd_same]
          intro hc
          exact hfresh _ hj hc.symm
        · rw [upd_ne E _ hji]
          intro hkeq
          exact hji (hdistinct j hj i hi hkeq)
    · rw [if_neg hswap]
      exact ih E _ _ _ _ hsucc (by omega) hfull hd0 hdistinct hfresh

/-- The reinsertion sweep: folding the reinsert step over a duplicate-free
list of source slots whose keys are disjoint from the accumulated array
succeeds, preserves the structural invariant, and adds exactly the
records of the processed slots. -/
theorem reinsertFold_ok (cap cap2 : Nat) {ks : Nat} (m2 : Nat) (hm2 : cap2 = 2 ^ m2)
    (hc2 : 2 ≤ cap2) (hcaplt : cap < cap2) (E0 : Nat → Entry) (hE0 : EInv cap ks E0)
    (fuel : Nat) (hfuel : cap2 ≤ fuel) :
    ∀ l E sz, l.Nodup → (∀ x ∈ l, x < cap) →
      EInv cap2 ks E →
      (∀ j < cap2, (E j).dist ≠ -1 → ∀ i0 ∈ l, (E0 i0).dist ≠ -1 →
        (E j).key ≠ (E0 i0).key) →
      sz = (List.range cap2).countP (fun j => (E j).dist != -1) →
      (List.range cap2).countP (fun j => (E j).dist != -1) + l.length ≤ cap →
      ∃ E1 sz1, reinsertFold cap2 fuel E0 l (E, sz) = some (E1, sz1) ∧
        EInv cap2 ks E1 ∧
        (∀ k2 v2, pairAt cap2 E1 k2 v2 ↔ (pairAt cap2 E k2 v2 ∨
          ∃ i0, i0 ∈ l ∧ (E0 i0).dist ≠ -1 ∧ (E0 i0).key = k2 ∧ (E0 i0).val = v2)) ∧
        sz1 = (List.range cap2).countP (fun j => (E1 j).dist != -1) ∧
        (List.range cap2).countP (fun j => (E1 j).dist != -1)
          = (List.range cap2).countP (fun j => (E j).dist != -1)
            + l.countP (fun i => (E0 i).dist != -1) := by
  intro l
  induction l with
  | nil =>
    intro E sz _ _ hEinv _ hsz _
    refine ⟨E, sz, rfl, hEinv, ?_, hsz, by simp⟩
    intro k2 v2
    simp
  | cons i l' ih =>
    intro E sz hnd hbound hEinv hfresh hsz hcnt
    have hilt : i < cap := hbound i (by simp)
    show ∃ E1 sz1, reinsertFold cap2 fuel E0 (i :: l') (E, sz) = some (E1, sz1) ∧ _
    unfold reinsertFold
    by_cases hocc0 : 0 ≤ (E0 i).dist
    · rw [if_pos hocc0]
      have hocc0' : (E0 i).dist ≠ -1 := by omega
      -- insert (E0 i) as a fresh key into E
      have hcntlt : (List.range cap2).countP (fun j => (E j).dist != -1) < cap2 := by
        have := List.length_cons i l'
        omega
      obtain ⟨je, hje, hjeE⟩ := exists_empty_of_count_lt hcntlt
      have hhc : home cap2 (E0 i).key < cap2 := home_lt (by omega) _
      have hfw : (home cap2 (E0 i).key + disp cap2 je (home cap2 (E0 i).key)) % cap2 = je :=
        (idx_eq_home_add_disp hje hhc).symm
      have hstart : fnv1 (E0 i).key &&& (cap2 - 1) = home cap2 (E0 i).key := by
        rw [mask_eq_mod m2 hm2]; rfl
      obtain ⟨E', hE'eq, hpost⟩ := placeLoop_fresh m2 hm2 hc2 E (E0 i).key (E0 i).val fuel E
        (home cap2 (E0 i).key) 0 (E0 i).key (E0 i).val
        (disp cap2 je (home cap2 (E0 i).key))
        ⟨hhc, le_refl 0, hEinv, hE0.keylen i hilt hocc0', by rw [disp_self hhc]; rfl,
          Or.inl rfl,
          (fun j hj hoj => hfresh j hj hoj i (by simp) hocc0'),
          (fun k2 v2 => Iff.rfl), rfl⟩
        (by rw [hfw]; exact hjeE)
        (by simpa using disp_lt (show 0 < cap2 by omega) je (home cap2 (E0 i).key))
        (by have := disp_lt (show 0 < cap2 by omega) je (home cap2 (E0 i).key); omega)
      rw [hstart, hE'eq]
      have hcnt' := hpost.cnt
      have hfresh2 : ∀ j < cap2, (E' j).dist ≠ -1 → ∀ i0 ∈ l', (E0 i0).dist ≠ -1 →
          (E' j).key ≠ (E0 i0).key := by
        intro j hj hoj i0 hi0 hoi0
        have hpair : pairAt cap2 E' ((E' j).key) ((E' j).val) := ⟨j, hj, hoj, rfl, rfl⟩
        rw [hpost.model _ _] at hpair
        rcases hpair with ⟨hk2, _⟩ | ⟨j2, hj2, hoj2, hk2, _⟩
        · rw [hk2]
          intro hkeq
          have hii := hE0.distinct i hilt i0 (hbound i0 (by simp [hi0])) hocc0' hoi0 hkeq
          subst hii
          exact (List.nodup_cons.mp hnd).1 hi0
        · rw [← hk2]
          exact hfresh j2 hj2 hoj2 i0 (by simp [hi0]) hoi0
      have hsz2 : sz + 1 = (List.range cap2).countP (fun j => (E' j).dist != -1) := by
        rw [hcnt', hsz]
      have hcnt2 : (List.range cap2).countP (fun j => (E' j).dist != -1) + l'.length ≤ cap := by
        rw [hcnt']
        have hlen := List.length_cons i l'
        omega
      obtain ⟨E1, sz1, hfold, hEinv1, hmodel1, hsz1, hcount1⟩ := ih E' (sz + 1)
        (List.nodup_cons.mp hnd).2 (fun x hx => hbound x (by simp [hx])) hpost.einv
        hfresh2 hsz2 hcnt2
      refine ⟨E1, sz1, hfold, hEinv1, ?_, hsz1, ?_⟩
      · intro k2 v2
        rw [hmodel1 k2 v2, hpost.model k2 v2]
        constructor
        · rintro ((⟨hk2, hv2⟩ | hE) | ⟨i0, hi0, ho0, hk0, hv0⟩)
          · exact Or.inr ⟨i, by simp, hocc0', hk2.symm, hv2.symm⟩
          · exact Or.inl hE
          · exact Or.inr ⟨i0, by simp [hi0], ho0, hk0, hv0⟩
        · rintro (hE | ⟨i0, hi0, ho0, hk0, hv0⟩)
          · exact Or.inl (Or.inr hE)
          · rcases List.mem_cons.mp hi0 with h | h
            · subst h
              exact Or.inl (Or.inl ⟨hk0.symm, hv0.symm⟩)
            · exact Or.inr ⟨i0, h, ho0, hk0, hv0⟩
      · rw [hcount1, hcnt']
        have hlc : (i :: l').countP (fun x => (E0 x).dist != -1)
            = l'.countP (fun x => (E0 x).dist != -1) + 1 := by
          rw [List.countP_cons]
          simp [hocc0']
        rw [hlc]
        omega
    · rw [if_neg hocc0]
      have hocc0' : (E0 i).dist = -1 := by
        by_contra hc
        have := hE0.dist_eq i hilt hc
        rw [this] at hocc0
        exact hocc0 (Int.ofNat_nonneg _)
      obtain ⟨E1, sz1, hfold, hEinv1, hmodel1, hsz1, hcount1⟩ := ih E sz
        (List.nodup_cons.mp hnd).2 (fun x hx => hbound x (by simp [hx])) hEinv
        (fun j hj hoj i0 hi0 => hfresh j hj hoj i0 (by simp [hi0]))
        hsz (by have := List.length_cons i l'; omega)
      refine ⟨E1, sz1, hfold, hEinv1, ?_, hsz1, ?_⟩
      · intro k2 v2
        rw [hmodel1 k2 v2]
        constructor
        · rintro (hE | ⟨i0, hi0, ho0, hk0, hv0⟩)
          · exact Or.inl hE
          · exact Or.inr ⟨i0, by simp [hi0], ho0, hk0, hv0⟩
        · rintro (hE | ⟨i0, hi0, ho0, hk0, hv0⟩)
          · exact Or.inl hE
          · rcases List.mem_cons.mp hi0 with h | h
            · subst h; exact absurd hocc0' ho0
            · exact Or.inr ⟨i0, h, ho0, hk0, hv0⟩
      · rw [hcount1]
        have hlc : (i :: l').countP (fun x => (E0 x).dist != -1)
            = l'.countP (fun x => (E0 x).dist != -1) := by
          rw [List.countP_cons]
          simp [hocc0']
        rw [hlc]

theorem ht_resize_ok {ht : HashTable} (hI : Inv ht) (fuel : Nat)
    (hfuel : 2 * ht.capacity ≤ fuel) :
    ∃ ht2, ht_resize true fuel ht (ht.capacity * 2) = some (0, ht2) ∧
      Inv ht2 ∧ ht2.capacity = 2 * ht.capacity ∧ ht2.key_size = ht.key_size ∧
      ht2.value_size = ht.value_size ∧
      (∀ k2 v2, stored ht2 k2 v2 ↔ stored ht k2 v2) ∧
      countOccupied ht2 = countOccupied ht ∧ ht2.size = countOccupied ht := by
  obtain ⟨m, hm⟩ := hI.cap_pow
  have hcap2 : next_power_of_two (ht.capacity * 2) = 2 * ht.capacity := by
    have h1 : ht.capacity * 2 = 2 ^ (m + 1) := by rw [hm]; ring
    rw [h1, npt_pow, hm]
    ring
  have hcnt0 : (List.range (2 * ht.capacity)).countP
      (fun j => ((fun _ => (⟨-1, [], []⟩ : Entry)) j).dist != -1) = 0 := by
    apply List.countP_eq_zero.mpr
    intro a _
    simp
  obtain ⟨E1, sz1, hfold, hEinv1, hmodel1, hsz1, hcount1⟩ :=
    reinsertFold_ok ht.capacity (2 * ht.capacity) (m + 1)
      (by rw [hm]; ring) (by have := hI.cap_ge; omega) (by have := hI.cap_ge; omega)
      ht.entries hI.einv fuel (by omega) (List.range ht.capacity)
      (fun _ => ⟨-1, [], []⟩) 0 (List.nodup_range _)
      (fun x hx => List.mem_range.mp hx)
      ⟨fun i _ ho => absurd rfl ho, fun i _ ho => absurd rfl ho,
        fun i _ j _ ho => absurd rfl ho, fun i _ ho => absurd rfl ho⟩
      (fun j _ ho => absurd rfl ho)
      hcnt0.symm
      (by rw [hcnt0, List.length_range]; omega)
  refine ⟨{ ht with capacity := 2 * ht.capacity, size := sz1, entries := E1 },
    ?_, ?_, rfl, rfl, rfl, ?_, ?_, ?_⟩
  · unfold ht_resize
    rw [if_neg (by simp), hcap2, hfold]
  · constructor
    · exact ⟨m + 1, by rw [hm]; ring⟩
    · show 8 ≤ 2 * ht.capacity
      have := hI.cap_ge
      omega
    · exact hEinv1
  · intro k2 v2
    rw [stored_iff_pairAt, stored_iff_pairAt]
    show pairAt (2 * ht.capacity) E1 k2 v2 ↔ _
    rw [hmodel1 k2 v2]
    constructor
    · rintro (⟨j, hj, ho, _⟩ | ⟨i0, hi0, ho0, hk0, hv0⟩)
      · exact absurd rfl ho
      · exact ⟨i0, List.mem_range.mp hi0, ho0, hk0, hv0⟩
    · rintro ⟨i0, hi0, ho0, hk0, hv0⟩
      exact Or.inr ⟨i0, List.mem_range.mpr hi0, ho0, hk0, hv0⟩
  · show (List.range (2 * ht.capacity)).countP _ = _
    rw [hcount1, hcnt0]
    unfold countOccupied
    omega
  · show sz1 = _
    rw [hsz1, hcount1, hcnt0]
    unfold countOccupied
    omega

/-! ## The two terminating shapes of an insert: overwrite the stored
value of an existing key, or place a fresh key. -/

theorem rh_place_update {ht : HashTable} (hI : Inv ht) {j : Nat} {k w : List Nat}
    (hst : storedAt ht j k w) (v : List Nat) (fuel : Nat) (hfuel : ht.capacity < fuel) :
    ∃ ht1, rh_place fuel ht k v = some (ht1, false) ∧ Inv ht1 ∧
      ht1.capacity = ht.capacity ∧ ht1.key_size = ht.key_size ∧
      ht1.value_size = ht.value_size ∧ ht1.size = ht.size ∧
      stored ht1 k v ∧
      (∀ k2 v2, k2 ≠ k → (stored ht1 k2 v2 ↔ stored ht k2 v2)) ∧
      (∀ v2, stored ht1 k v2 → v2 = v) ∧
      countOccupied ht1 = countOccupied ht := by
  obtain ⟨m, hm⟩ := hI.cap_pow
  have hh : home ht.capacity k < ht.capacity := home_lt hI.cap_pos _
  have hdlt : disp ht.capacity j (home ht.capacity k) < ht.capacity := disp_lt hI.cap_pos _ _
  have hploop := placeLoop_update hI hst v (disp ht.capacity j (home ht.capacity k)) 0 fuel
    (by omega) (by omega)
  have h0 : fnv1 k &&& (ht.capacity - 1) = (home ht.capacity k + 0) % ht.capacity := by
    rw [mask_eq_mod m hm, Nat.add_zero, Nat.mod_eq_of_lt hh]
    rfl
  obtain ⟨hj, ho, hk, hv⟩ := hst
  have hres : rh_place fuel ht k v
      = some ({ ht with
          entries := upd ht.entries j ⟨(ht.entries j).dist, (ht.entries j).key, v⟩,
          size := ht.size }, false) := by
    unfold rh_place
    rw [h0]
    have hz : ((0:Nat) : Int) = (0 : Int) := rfl
    rw [← hz, hploop]
    rfl
  set E1 := upd ht.entries j ⟨(ht.entries j).dist, (ht.entries j).key, v⟩ with hE1
  have hkd : ∀ i, (E1 i).dist = (ht.entries i).dist ∧ (E1 i).key = (ht.entries i).key := by
    intro i
    by_cases hij : i = j
    · subst hij
      rw [hE1, upd_same]
      exact ⟨rfl, rfl⟩
    · rw [hE1, upd_ne _ _ hij]
      exact ⟨rfl, rfl⟩
  refine ⟨_, hres, ?_, rfl, rfl, rfl, rfl, ?_, ?_, ?_, ?_⟩
  · refine ⟨⟨m, hm⟩, hI.cap_ge, ?_, ?_, ?_, ?_⟩
    · intro i hi hoi
      rw [(hkd i).1, (hkd i).2]
      rw [(hkd i).1] at hoi
      exact hI.dist_eq i hi hoi
    · intro i hi hoi
      rw [(hkd i).2]
      rw [(hkd i).1] at hoi
      exact hI.keylen i hi hoi
    · intro i1 hi1 i2 hi2 ho1 ho2 hkeq
      rw [(hkd i1).1] at ho1
      rw [(hkd i2).1] at ho2
      rw [(hkd i1).2, (hkd i2).2] at hkeq
      exact hI.distinct i1 hi1 i2 hi2 ho1 ho2 hkeq
    · intro i hi hoi hdi
      rw [(hkd i).1] at hoi hdi
      rw [(hkd i).1, (hkd ((i + ht.capacity - 1) % ht.capacity)).1]
      exact hI.chain i hi hoi hdi
  · refine ⟨j, hj, ?_, ?_, ?_⟩
    · show (E1 j).dist ≠ -1
      rw [(hkd j).1]
      exact ho
    · show (E1 j).key = k
      rw [(hkd j).2]
      exact hk
    · show (E1 j).val = v
      rw [hE1, upd_same]
  · intro k2 v2 hne
    rw [stored_iff_pairAt, stored_iff_pairAt]
    show pairAt ht.capacity E1 k2 v2 ↔ pairAt ht.capacity ht.entries k2 v2
    rw [hE1, pairAt_iff_upd hj (Entry.mk (ht.entries j).dist (ht.entries j).key v) ho,
      pairAt_iff_split hj ho]
    constructor
    · rintro (⟨hk2, hv2⟩ | hrest)
      · exact absurd (hk2.trans hk) hne
      · exact Or.inr hrest
    · rintro (⟨hk2, _⟩ | hrest)
      · exact absurd (hk2.trans hk) hne
      · exact Or.inr hrest
  · intro v2 hst2
    obtain ⟨i2, hi2, ho2, hk2, hv2⟩ := hst2
    have hi2' : i2 < ht.capacity := hi2
    have ho2' : (E1 i2).dist ≠ -1 := ho2
    have hk2' : (E1 i2).key = k := hk2
    have hv2' : (E1 i2).val = v2 := hv2
    have hieq : i2 = j := by
      apply hI.distinct i2 hi2' j hj
      · rw [← (hkd i2).1]
        exact ho2'
      · exact ho
      · rw [← (hkd i2).2, hk2', hk]
    subst hieq
    have hv3 : (upd ht.entries i2 ⟨(ht.entries i2).dist, (ht.entries i2).key, v⟩ i2).val = v2 :=
      hv2'
    rw [upd_same] at hv3
    exact hv3.symm
  · show (List.range ht.capacity).countP _ = _
    rw [hE1]
    exact cnt_upd_occ hj _ ho (by show (ht.entries j).dist ≠ -1; exact ho)

theorem rh_place_fresh {ht : HashTable} (hI : Inv ht) {k v : List Nat}
    (habs : ¬ hasKey ht k) (hklen : k.length = ht.key_size)
    (hroom : countOccupied ht < ht.capacity) (fuel : Nat)
    (hfuel : ht.capacity ≤ fuel) :
    ∃ ht1, rh_place fuel ht k v = some (ht1, true) ∧ Inv ht1 ∧
      ht1.capacity = ht.capacity ∧ ht1.key_size = ht.key_size ∧
      ht1.value_size = ht.value_size ∧ ht1.size = ht.size + 1 ∧
      stored ht1 k v ∧
      (∀ k2 v2, k2 ≠ k → (stored ht1 k2 v2 ↔ stored ht k2 v2)) ∧
      (∀ v2, stored ht1 k v2 → v2 = v) ∧
      countOccupied ht1 = countOccupied ht + 1 := by
  obtain ⟨m, hm⟩ := hI.cap_pow
  have hh : home ht.capacity k < ht.capacity := home_lt hI.cap_pos _
  obtain ⟨je, hje, hjeE⟩ := exists_empty_of_count_lt hroom
  have hfw : (home ht.capacity k + disp ht.capacity je (home ht.capacity k)) % ht.capacity
      = je := (idx_eq_home_add_disp hje hh).symm
  have hfresh0 : ∀ j < ht.capacity, (ht.entries j).dist ≠ -1 → (ht.entries j).key ≠ k := by
    intro j hj ho hkeq
    exact habs ⟨j, (ht.entries j).val, hj, ho, hkeq, rfl⟩
  obtain ⟨E1, hploop, hpost⟩ := placeLoop_fresh m hm (by have := hI.cap_ge; omega)
    ht.entries k v fuel ht.entries (home ht.capacity k) 0 k v
    (disp ht.capacity je (home ht.capacity k))
    ⟨hh, le_refl 0, hI.einv, hklen, by rw [disp_self hh]; rfl, Or.inl rfl, hfresh0,
      (fun k2 v2 => Iff.rfl), rfl⟩
    (by rw [hfw]; exact hjeE)
    (by simpa using disp_lt hI.cap_pos je (home ht.capacity k))
    (by have := disp_lt hI.cap_pos je (home ht.capacity k); omega)
  have h0 : fnv1 k &&& (ht.capacity - 1) = home ht.capacity k := by
    rw [mask_eq_mod m hm]
    rfl
  have hres : rh_place fuel ht k v
      = some ({ ht with entries := E1, size := ht.size + 1 }, true) := by
    unfold rh_place
    rw [h0, hploop]
    rfl
  refine ⟨_, hres, ⟨⟨m, hm⟩, hI.cap_ge, hpost.einv⟩, rfl, rfl, rfl, rfl, ?_, ?_, ?_, ?_⟩
  · rw [stored_iff_pairAt]
    show pairAt ht.capacity E1 k v
    rw [hpost.model]
    exact Or.inl ⟨rfl, rfl⟩
  · intro k2 v2 hne
    rw [stored_iff_pairAt, stored_iff_pairAt]
    show pairAt ht.capacity E1 k2 v2 ↔ pairAt ht.capacity ht.entries k2 v2
    rw [hpost.model]
    constructor
    · rintro (⟨hk2, _⟩ | h)
      · exact absurd hk2 hne
      · exact h
    · exact Or.inr
  · intro v2 hst2
    rw [stored_iff_pairAt] at hst2
    have := (hpost.model k v2).mp hst2
    rcases this with ⟨_, hv2⟩ | hp
    · exact hv2
    · exact absurd ((stored_iff_pairAt ht k v2).mpr hp) (fun h => habs ⟨_, v2, h.choose_spec⟩)
  · show (List.range ht.capacity).countP _ = _
    exact hpost.cnt

/-- A successful `ht_insert` (with the allocation succeeding) returns 0
and either overwrites the value of the already-present key or adds the
new record; all other records are untouched. -/
theorem ht_insert_some {ht : HashTable} (hI : Inv ht) {k v : List Nat} {fuel r : Nat}
    {ht' : HashTable} (hk : k.length = ht.key_size)
    (hfuel : 2 * ht.capacity < fuel)
    (hres : ht_insert true fuel ht k v = some (r, ht')) :
    r = 0 ∧ Inv ht' ∧ ht'.key_size = ht.key_size ∧ ht'.value_size = ht.value_size ∧
      stored ht' k v ∧
      (∀ k2 v2, k2 ≠ k → (stored ht' k2 v2 ↔ stored ht k2 v2)) ∧
      (∀ v2, stored ht' k v2 → v2 = v) ∧
      ((hasKey ht k ∧ countOccupied ht' = countOccupied ht) ∨
       (¬ hasKey ht k ∧ countOccupied ht' = countOccupied ht + 1)) := by
  unfold ht_insert at hres
  by_cases hload : 2 * (ht.size + 1) > ht.capacity
  · rw [if_pos hload] at hres
    obtain ⟨ht2, heq2, hI2, hcap2, hks2, hvs2, hstored2, hcnt2, hsz2⟩ :=
      ht_resize_ok hI fuel (by omega)
    rw [heq2] at hres
    have hres2 : (match rh_place fuel ht2 k v with
        | none => none
        | some (ht3, _) => some (0, ht3)) = some (r, ht') := hres
    by_cases hhk : hasKey ht k
    · obtain ⟨j0, w, hstw⟩ := hhk
      have hstw2 : stored ht2 k w := (hstored2 k w).mpr ⟨j0, hstw⟩
      obtain ⟨j2, hst2⟩ := hstw2
      obtain ⟨ht3, heq3, hI3, hcap3, hks3, hvs3, hsz3, hst3, hpres3, huniq3, hcnt3⟩ :=
        rh_place_update hI2 hst2 v fuel (by rw [hcap2]; omega)
      rw [heq3] at hres2
      simp only [Option.some.injEq, Prod.mk.injEq] at hres2
      obtain ⟨hr, hht⟩ := hres2
      subst hht
      refine ⟨hr.symm, hI3, hks3.trans hks2, hvs3.trans hvs2, hst3, ?_, huniq3, ?_⟩
      · intro k2 v2 hne
        rw [hpres3 k2 v2 hne, hstored2 k2 v2]
      · exact Or.inl ⟨⟨j0, w, hstw⟩, by rw [hcnt3, hcnt2]⟩
    · have hhk2 : ¬ hasKey ht2 k := by
        rintro ⟨j2, v2, hst2⟩
        exact hhk (by
          obtain ⟨j0, hst0⟩ := (hstored2 k v2).mp ⟨j2, hst2⟩
          exact ⟨j0, v2, hst0⟩)
      have hroom2 : countOccupied ht2 < ht2.capacity := by
        rw [hcnt2, hcap2]
        have h1 := count_le_cap ht.capacity ht.entries
        have hcge := hI.cap_ge
        unfold countOccupied
        omega
      obtain ⟨ht3, heq3, hI3, hcap3, hks3, hvs3, hsz3, hst3, hpres3, huniq3, hcnt3⟩ :=
        rh_place_fresh hI2 hhk2 (by rw [hks2]; exact hk) hroom2 fuel
          (by rw [hcap2]; omega)
      rw [heq3] at hres2
      simp only [Option.some.injEq, Prod.mk.injEq] at hres2
      obtain ⟨hr, hht⟩ := hres2
      subst hht
      refine ⟨hr.symm, hI3, hks3.trans hks2, hvs3.trans hvs2, hst3, ?_, huniq3, ?_⟩
      · intro k2 v2 hne
        rw [hpres3 k2 v2 hne, hstored2 k2 v2]
      · exact Or.inr ⟨hhk, by rw [hcnt3, hcnt2]⟩
  · rw [if_neg hload] at hres
    by_cases hhk : hasKey ht k
    · obtain ⟨j0, w, hstw⟩ := hhk
      obtain ⟨ht3, heq3, hI3, hcap3, hks3, hvs3, hsz3, hst3, hpres3, huniq3, hcnt3⟩ :=
        rh_place_update hI hstw v fuel (by omega)
      rw [heq3] at hres
      simp only [Option.some.injEq, Prod.mk.injEq] at hres
      obtain ⟨hr, hht⟩ := hres
      subst hht
      exact ⟨hr.symm, hI3, hks3, hvs3, hst3, hpres3, huniq3,
        Or.inl ⟨⟨j0, w, hstw⟩, hcnt3⟩⟩
    · by_cases hroom : countOccupied ht < ht.capacity
      · obtain ⟨ht3, heq3, hI3, hcap3, hks3, hvs3, hsz3, hst3, hpres3, huniq3, hcnt3⟩ :=
          rh_place_fresh hI hhk hk hroom fuel (by omega)
        rw [heq3] at hres
        simp only [Option.some.injEq, Prod.mk.injEq] at hres
        obtain ⟨hr, hht⟩ := hres
        subst hht
        exact ⟨hr.symm, hI3, hks3, hvs3, hst3, hpres3, huniq3, Or.inr ⟨hhk, hcnt3⟩⟩
      · exfalso
        obtain ⟨m, hm⟩ := hI.cap_pow
        have hfullcnt : countOccupied ht = ht.capacity := by
          have h1 := count_le_cap ht.capacity ht.entries
          unfold countOccupied
          unfold countOccupied at hroom
          omega
        have hfull := all_occ_of_count_eq (by unfold countOccupied at hfullcnt; exact hfullcnt)
        have hplfail : rh_place fuel ht k v = none := by
          unfold rh_place
          rw [placeLoop_full_none m hm fuel ht.entries _ 0 k v
            (by rw [mask_eq_mod m hm]; exact Nat.mod_lt _ hI.cap_pos)
            (le_refl 0) hfull
            (fun j hj => hI.dist_nonneg hj (hfull j hj))
            (fun j1 hj1 j2 hj2 hkeq =>
              hI.distinct j1 hj1 j2 hj2 (hfull j1 hj1) (hfull j2 hj2) hkeq)
            (fun j hj hkeq => hhk ⟨j, (ht.entries j).val, hj, hfull j hj, hkeq, rfl⟩)]
        rw [hplfail] at hres
        exact Option.noConfusion hres

/-! ## Deletion: the C return code is always 0 (also for a successful
removal), and backward-shift deletion preserves the invariant. -/

theorem deleteLoop_code_zero {cap : Nat} :
    ∀ fuel E idx probe k sfuel r rest,
      deleteLoop cap fuel E idx probe k sfuel = some (r, rest) → r = 0 := by
  intro fuel
  induction fuel with
  | zero => intro E idx probe k sfuel r rest h; exact absurd h (by simp [deleteLoop])
  | succ fl ih =>
    intro E idx probe k sfuel r rest h
    unfold deleteLoop at h
    by_cases h1 : (E idx).dist = -1
    · rw [if_pos h1] at h
      simp only [Option.some.injEq, Prod.mk.injEq] at h
      exact h.1.symm
    · rw [if_neg h1] at h
      by_cases h2 : probe > (E idx).dist
      · rw [if_pos h2] at h
        simp only [Option.some.injEq, Prod.mk.injEq] at h
        exact h.1.symm
      · rw [if_neg h2] at h
        by_cases h3 : (E idx).key = k
        · rw [if_pos h3] at h
          rcases hsh : shiftLoop cap sfuel (upd E idx ⟨-1, (E idx).key, (E idx).val⟩)
              idx ((idx + 1) &&& (cap - 1)) with _ | E2
          · rw [hsh] at h
            exact absurd h (by simp)
          · rw [hsh] at h
            simp only [Option.some.injEq, Prod.mk.injEq] at h
            exact h.1.symm
        · rw [if_neg h3] at h
          exact ih _ _ _ _ _ _ _ h

theorem ht_delete_code_zero {ht : HashTable} {k : List Nat} {fuel r : Nat}
    {ht' : HashTable} (h : ht_delete fuel ht k = some (r, ht')) : r = 0 := by
  unfold ht_delete at h
  rcases hdl : deleteLoop ht.capacity fuel ht.entries (fnv1 k &&& (ht.capacity - 1)) 0 k fuel
    with _ | p
  · rw [hdl] at h
    exact absurd h (by simp)
  · rw [hdl] at h
    obtain ⟨r0, removed, E⟩ := p
    simp only [Option.some.injEq, Prod.mk.injEq] at h
    rw [← h.1]
    exact deleteLoop_code_zero fuel ht.entries _ 0 k fuel r0 (removed, E) hdl

theorem deleteLoop_absent {ht : HashTable} (hI : Inv ht) {k : List Nat}
    (habs : ∀ i < ht.capacity, (ht.entries i).dist ≠ -1 → (ht.entries i).key ≠ k) :
    ∀ fuel i t sfuel, i < ht.capacity → 0 < fuel → ht.capacity < t + fuel →
      deleteLoop ht.capacity fuel ht.entries i (t : Int) k sfuel
        = some (0, false, ht.entries) := by
  intro fuel
  induction fuel with
  | zero => intro i t sfuel _ h0 _; omega
  | succ fl ih =>
    intro i t sfuel hi _ hcap
    unfold deleteLoop
    by_cases he : (ht.entries i).dist = -1
    · rw [if_pos he]
    · rw [if_neg he]
      by_cases hp : (t : Int) > (ht.entries i).dist
      · rw [if_pos hp]
      · rw [if_neg hp]
        rw [if_neg (habs i hi he)]
        have hlt : (ht.entries i).dist < (ht.capacity : Int) := hI.dist_lt_cap hi he
        have htc : t < ht.capacity := by
          have h2 : (t : Int) < (ht.capacity : Int) := by omega
          exact_mod_cast h2
        obtain ⟨m, hm⟩ := hI.cap_pow
        rw [mask_eq_mod m hm]
        have hcast : (t : Int) + 1 = ((t + 1 : Nat) : Int) := by omega
        rw [hcast]
        exact ih ((i + 1) % ht.capacity) (t + 1) sfuel (Nat.mod_lt _ hI.cap_pos) (by omega)
          (by omega)

theorem ht_delete_absent {ht : HashTable} (hI : Inv ht) {k : List Nat}
    (habs : ¬ hasKey ht k) (fuel : Nat) (hfuel : ht.capacity < fuel) :
    ht_delete fuel ht k = some (0, ht) := by
  obtain ⟨m, hm⟩ := hI.cap_pow
  have hpt : ∀ i < ht.capacity, (ht.entries i).dist ≠ -1 → (ht.entries i).key ≠ k := by
    intro i hi ho hkeq
    exact habs ⟨i, (ht.entries i).val, hi, ho, hkeq, rfl⟩
  unfold ht_delete
  rw [mask_eq_mod m hm]
  have hz : ((0:Nat) : Int) = (0 : Int) := rfl
  rw [← hz, deleteLoop_absent hI hpt fuel _ 0 fuel (Nat.mod_lt _ hI.cap_pos) (by omega)
    (by omega)]
  rfl

/-- Loop invariant of the backward-shift phase of `ht_delete`: slot `h`
is the logically deleted hole; away from it the structural invariant
holds, the chain condition may jump across the hole by at most 2
(`cross`), and the records away from the hole are exactly the original
ones minus the deleted key. -/
structure ShiftInv (cap ks : Nat) (E0 : Nat → Entry) (k : List Nat) (C0 : Nat)
    (E : Nat → Entry) (h : Nat) : Prop where
  hh : h < cap
  dist_eq : ∀ i < cap, i ≠ h → (E i).dist ≠ -1 →
    (E i).dist = (disp cap i (home cap (E i).key) : Int)
  keylen : ∀ i < cap, i ≠ h → (E i).dist ≠ -1 → (E i).key.length = ks
  distinct : ∀ i < cap, ∀ j < cap, i ≠ h → j ≠ h → (E i).dist ≠ -1 → (E j).dist ≠ -1 →
    (E i).key = (E j).key → i = j
  chain : ∀ i < cap, i ≠ h → i ≠ (h + 1) % cap → (E i).dist ≠ -1 → 0 < (E i).dist →
    (E ((i + cap - 1) % cap)).dist ≠ -1 ∧
    (E i).dist ≤ (E ((i + cap - 1) % cap)).dist + 1
  cross : (E ((h + 1) % cap)).dist ≠ -1 → 2 ≤ (E ((h + 1) % cap)).dist →
    (E ((h + cap - 1) % cap)).dist ≠ -1 ∧
    (E ((h + 1) % cap)).dist ≤ (E ((h + cap - 1) % cap)).dist + 2
  model : ∀ k2 v2, (∃ j, j < cap ∧ j ≠ h ∧ (E j).dist ≠ -1 ∧ (E j).key = k2 ∧
      (E j).val = v2) ↔ (pairAt cap E0 k2 v2 ∧ k2 ≠ k)
  cnt : (List.range cap).countP (fun j => (E j).dist != -1)
      = (if (E h).dist = -1 then C0 - 1 else C0)

theorem shiftLoop_ok {cap ks : Nat} (m : Nat) (hm : cap = 2 ^ m) (hc : 8 ≤ cap)
    (E0 : Nat → Entry) (k : List Nat) (C0 : Nat) (hC0 : 1 ≤ C0) :
    ∀ fuel E h E1, ShiftInv cap ks E0 k C0 E h →
      shiftLoop cap fuel E h ((h + 1) % cap) = some E1 →
      EInv cap ks E1 ∧
      (∀ k2 v2, pairAt cap E1 k2 v2 ↔ (pairAt cap E0 k2 v2 ∧ k2 ≠ k)) ∧
      (List.range cap).countP (fun j => (E1 j).dist != -1) = C0 - 1 := by
  intro fuel
  induction fuel with
  | zero => intro E h E1 _ hres; exact absurd hres (by simp [shiftLoop])
  | succ fl ih =>
    intro E h E1 hS hres
    obtain ⟨hh, hdist_eq, hkeylen, hdistinct, hchain, hcross, hmodel, hcnt⟩ := hS
    have hsucc : (h + 1) % cap < cap := Nat.mod_lt _ (by omega)
    have hsnh : (h + 1) % cap ≠ h := succ_ne_self (by omega) hh
    have hpnh : (h + cap - 1) % cap ≠ h := pred_ne_self (by omega) hh
    unfold shiftLoop at hres
    by_cases hstop : (E ((h + 1) % cap)).dist ≤ 0
    · rw [if_pos hstop] at hres
      simp only [Option.some.injEq] at hres
      subst hres
      set E1 := upd E h ⟨-1, (E h).key, (E h).val⟩ with hE1
      have hE1h : (E1 h).dist = -1 := by rw [hE1, upd_same]
      have hE1ne : ∀ i, i ≠ h → E1 i = E i := fun i hi => upd_ne E _ hi
      refine ⟨⟨?_, ?_, ?_, ?_⟩, ?_, ?_⟩
      · intro i hi hoi
        by_cases hih : i = h
        · subst hih; exact absurd hE1h hoi
        · rw [hE1ne i hih] at hoi ⊢
          exact hdist_eq i hi hih hoi
      · intro i hi hoi
        by_cases hih : i = h
        · subst hih; exact absurd hE1h hoi
        · rw [hE1ne i hih] at hoi ⊢
          exact hkeylen i hi hih hoi
      · intro i1 hi1 i2 hi2 ho1 ho2 hkeq
        by_cases h1 : i1 = h
        · subst h1; exact absurd hE1h ho1
        · by_cases h2 : i2 = h
          · subst h2; exact absurd hE1h ho2
          · rw [hE1ne i1 h1] at ho1 hkeq
            rw [hE1ne i2 h2] at ho2 hkeq
            exact hdistinct i1 hi1 i2 hi2 h1 h2 ho1 ho2 hkeq
      · intro i hi hoi hdi
        by_cases hih : i = h
        · subst hih; exact absurd hE1h hoi
        · by_cases hish : i = (h + 1) % cap
          · subst hish
            rw [hE1ne _ hsnh] at hdi
            omega
          · rw [hE1ne i hih] at hoi hdi
            have hpredne : (i + cap - 1) % cap ≠ h := by
              intro hpe
              exact hish (eq_succ_of_pred_eq hi hpe)
            rw [hE1ne i hih, hE1ne _ hpredne]
            exact hchain i hi hih hish hoi hdi
      · intro k2 v2
        rw [← hmodel k2 v2]
        constructor
        · rintro ⟨j, hj, hoj, hkj, hvj⟩
          by_cases hjh : j = h
          · subst hjh; exact absurd hE1h hoj
          · rw [hE1ne j hjh] at hoj hkj hvj
            exact ⟨j, hj, hjh, hoj, hkj, hvj⟩
        · rintro ⟨j, hj, hjh, hoj, hkj, hvj⟩
          exact ⟨j, hj, by rw [hE1ne j hjh]; exact hoj, by rw [hE1ne j hjh]; exact hkj,
            by rw [hE1ne j hjh]; exact hvj⟩
      · by_cases hEh : (E h).dist = -1
        · rw [if_pos hEh] at hcnt
          rw [← hcnt]
          apply countP_congr_of_eq
          intro a _
          show ((E1 a).dist != -1) = ((E a).dist != -1)
          by_cases hah : a = h
          · subst hah
            rw [hE1, upd_same]
            simp [hEh]
          · rw [hE1ne a hah]
        · rw [if_neg hEh] at hcnt
          have hstep : (List.range cap).countP (fun j => (E j).dist != -1)
              = (List.range cap).countP (fun j => (E1 j).dist != -1) + 1 :=
            countP_update_true (fun j => (E1 j).dist != -1) (fun j => (E j).dist != -1)
              (List.nodup_range cap) (List.mem_range.mpr hh)
              (fun a hah => by
                show ((E1 a).dist != -1) = ((E a).dist != -1)
                rw [hE1ne a hah])
              (by
                show ((E1 h).dist != -1) = false
                rw [hE1, upd_same]
                simp)
              (by
                show ((E h).dist != -1) = true
                simp [hEh])
          omega
    · rw [if_neg hstop] at hres
      rw [mask_eq_mod m hm] at hres
      have hd1 : (1:Int) ≤ (E ((h + 1) % cap)).dist := by omega
      have hone : (E ((h + 1) % cap)).dist ≠ -1 := by omega
      set E2 := upd E h ⟨(E ((h + 1) % cap)).dist - 1, (E ((h + 1) % cap)).key,
        (E ((h + 1) % cap)).val⟩ with hE2
      have hE2h : E2 h = ⟨(E ((h + 1) % cap)).dist - 1, (E ((h + 1) % cap)).key,
          (E ((h + 1) % cap)).val⟩ := by
        rw [hE2, upd_same]
      have hE2ne : ∀ i, i ≠ h → E2 i = E i := fun i hi => upd_ne E _ hi
      have hsuccsucc : ((h + 1) % cap + 1) % cap ≠ h := by
        intro hcon
        have h1 : ((h + 1) % cap + 1) % cap = (h + 2) % cap := by
          rw [Nat.mod_add_mod]
        rw [h1] at hcon
        exact add_mod_ne_self hh (by omega) (by omega) hcon
      have hsdist : (E ((h + 1) % cap)).dist
          = (disp cap ((h + 1) % cap) (home cap (E ((h + 1) % cap)).key) : Int) :=
        hdist_eq _ hsucc hsnh hone
      have hdisppos : 0 < disp cap ((h + 1) % cap) (home cap (E ((h + 1) % cap)).key) := by
        by_contra hz
        have h0 : disp cap ((h + 1) % cap) (home cap (E ((h + 1) % cap)).key) = 0 := by omega
        rw [h0] at hsdist
        omega
      have hhome : home cap (E ((h + 1) % cap)).key < cap := home_lt (by omega) _
      have hdisph : (disp cap h (home cap (E ((h + 1) % cap)).key) : Int)
          = (E ((h + 1) % cap)).dist - 1 := by
        have hpe := disp_pred_eq hsucc hhome hdisppos
        rw [pred_succ hh] at hpe
        rw [hpe, hsdist]
        have hlt := disp_lt (show 0 < cap by omega) ((h + 1) % cap)
          (home cap (E ((h + 1) % cap)).key)
        omega
      have hSnew : ShiftInv cap ks E0 k C0 E2 ((h + 1) % cap) := by
        refine ⟨hsucc, ?_, ?_, ?_, ?_, ?_, ?_, ?_⟩
        · intro i hi hine hoi
          by_cases hih : i = h
          · subst hih
            rw [hE2h] at hoi ⊢
            show (E ((i + 1) % cap)).dist - 1 = _
            rw [← hdisph]
          · rw [hE2ne i hih] at hoi ⊢
            exact hdist_eq i hi hih hoi
        · intro i hi hine hoi
          by_cases hih : i = h
          · subst hih
            rw [hE2h]
            show (E ((i + 1) % cap)).key.length = ks
            exact hkeylen _ hsucc hsnh hone
          · rw [hE2ne i hih] at hoi ⊢
            exact hkeylen i hi hih hoi
        · intro i1 hi1 i2 hi2 hn1 hn2 ho1 ho2 hkeq
          by_cases h1 : i1 = h
          · subst h1
            by_cases h2 : i2 = i1
            · exact h2.symm
            · rw [hE2h] at hkeq
              rw [hE2ne i2 h2] at ho2 hkeq
              have heq2 : (i1 + 1) % cap = i2 :=
                hdistinct _ hsucc i2 hi2 hsnh h2 hone ho2 hkeq
              exact absurd heq2.symm hn2
          · by_cases h2 : i2 = h
            · subst h2
              rw [hE2h] at hkeq
              rw [hE2ne i1 h1] at ho1 hkeq
              have heq1 : i1 = (i2 + 1) % cap :=
                hdistinct i1 hi1 _ hsucc h1 hsnh ho1 hone hkeq
              exact absurd heq1 hn1
            · rw [hE2ne i1 h1] at ho1 hkeq
              rw [hE2ne i2 h2] at ho2 hkeq
              exact hdistinct i1 hi1 i2 hi2 h1 h2 ho1 ho2 hkeq
        · intro i hi hine hinss hoi hdi
          by_cases hih : i = h
          · subst hih
            rw [hE2h] at hoi hdi ⊢
            have hpredne2 : (i + cap - 1) % cap ≠ i := pred_ne_self (by omega) hi
            have hdi2 : (0:Int) < (E ((i + 1) % cap)).dist - 1 := hdi
            obtain ⟨hop, hbd⟩ := hcross hone (by omega)
            rw [hE2ne _ hpredne2]
            · refine ⟨?_, ?_⟩
              · exact hop
              · show (E ((i + 1) % cap)).dist - 1 ≤ _ + 1
                omega
          · have hpredh : (i + cap - 1) % cap ≠ h := by
              intro hpe
              exact hine (eq_succ_of_pred_eq hi hpe)
            rw [hE2ne i hih] at hoi hdi
            rw [hE2ne i hih, hE2ne _ hpredh]
            exact hchain i hi hih hine hoi hdi
        · intro hoss hdss
          rw [hE2ne _ hsuccsucc] at hoss hdss
          rw [pred_succ hh, hE2h, hE2ne _ hsuccsucc]
          obtain ⟨hop, hbd⟩ := hchain (((h + 1) % cap + 1) % cap) (Nat.mod_lt _ (by omega))
            hsuccsucc (succ_ne_self (by omega) hsucc) hoss (by omega)
          rw [pred_succ hsucc] at hop hbd
          refine ⟨?_, ?_⟩
          · show (E ((h + 1) % cap)).dist - 1 ≠ -1
            omega
          · show _ ≤ (E ((h + 1) % cap)).dist - 1 + 2
            omega
        · intro k2 v2
          rw [← hmodel k2 v2]
          constructor
          · rintro ⟨j, hj, hjne, hoj, hkj, hvj⟩
            by_cases hjh : j = h
            · subst hjh
              rw [hE2h] at hoj hkj hvj
              exact ⟨(j + 1) % cap, hsucc, hsnh, hone, hkj, hvj⟩
            · rw [hE2ne j hjh] at hoj hkj hvj
              exact ⟨j, hj, hjh, hoj, hkj, hvj⟩
          · rintro ⟨j, hj, hjh, hoj, hkj, hvj⟩
            by_cases hjs : j = (h + 1) % cap
            · subst hjs
              refine ⟨h, hh, fun hcon => hsnh hcon.symm, ?_, ?_, ?_⟩
              · rw [hE2h]
                show (E ((h + 1) % cap)).dist - 1 ≠ -1
                omega
              · rw [hE2h]
                exact hkj
              · rw [hE2h]
                exact hvj
            · refine ⟨j, hj, hjs, ?_, ?_, ?_⟩
              · rw [hE2ne j hjh]
                exact hoj
              · rw [hE2ne j hjh]
                exact hkj
              · rw [hE2ne j hjh]
                exact hvj
        · have hifnew : (E2 ((h + 1) % cap)).dist ≠ -1 := by
            rw [hE2ne _ hsnh]
            exact hone
          rw [if_neg hifnew]
          by_cases hEh : (E h).dist = -1
          · rw [if_pos hEh] at hcnt
            have hfill := cnt_upd_fill hh
              (⟨(E ((h + 1) % cap)).dist - 1, (E ((h + 1) % cap)).key,
                (E ((h + 1) % cap)).val⟩ : Entry) hEh (by show _ - 1 ≠ (-1 : Int); omega)
            rw [← hE2] at hfill
            omega
          · rw [if_neg hEh] at hcnt
            have hocc2 := cnt_upd_occ hh
              (⟨(E ((h + 1) % cap)).dist - 1, (E ((h + 1) % cap)).key,
                (E ((h + 1) % cap)).val⟩ : Entry) hEh (by show _ - 1 ≠ (-1 : Int); omega)
            rw [← hE2] at hocc2
            omega
      exact ih E2 ((h + 1) % cap) E1 hSnew hres

theorem deleteLoop_present {ht : HashTable} (hI : Inv ht) {j : Nat} {k w : List Nat}
    (hst : storedAt ht j k w) (sfuel : Nat) :
    ∀ n t fuel, t + n = disp ht.capacity j (home ht.capacity k) → n < fuel →
      deleteLoop ht.capacity fuel ht.entries ((home ht.capacity k + t) % ht.capacity)
        (t : Int) k sfuel
        = (match shiftLoop ht.capacity sfuel
            (upd ht.entries j ⟨-1, (ht.entries j).key, (ht.entries j).val⟩) j
            ((j + 1) &&& (ht.capacity - 1)) with
          | none => none
          | some E2 => some (0, true, E2)) := by
  obtain ⟨hj, ho, hk, hv⟩ := hst
  have hkey : (ht.entries j).key = k := hk
  have hh : home ht.capacity k < ht.capacity := home_lt hI.cap_pos _
  have hdcap : disp ht.capacity j (home ht.capacity k) < ht.capacity := disp_lt hI.cap_pos _ _
  have hjd : j = (home ht.capacity k + disp ht.capacity j (home ht.capacity k)) % ht.capacity :=
    idx_eq_home_add_disp hj hh
  intro n
  induction n with
  | zero =>
    intro t fuel ht0 hf
    simp only [Nat.add_zero] at ht0
    obtain ⟨fl, rfl⟩ : ∃ fl, fuel = fl + 1 := ⟨fuel - 1, by omega⟩
    rw [ht0, ← hjd]
    show deleteLoop ht.capacity (fl + 1) ht.entries j _ k sfuel = _
    unfold deleteLoop
    have hdist : (ht.entries j).dist
        = ((disp ht.capacity j (home ht.capacity k) : Nat) : Int) := by
      rw [hI.dist_eq j hj ho, hkey]
    rw [if_neg ho, if_neg (by rw [hdist]; omega), hkey, if_pos rfl]
  | succ n ih =>
    intro t fuel ht0 hf
    obtain ⟨fl, rfl⟩ : ∃ fl, fuel = fl + 1 := ⟨fuel - 1, by omega⟩
    set d := disp ht.capacity j (home ht.capacity k) with hd
    have hts : t + 1 + n = d := by omega
    have htd : t < d := by omega
    have hback := chain_walk hI hj ho (d - t) (by rw [hkey, ← hd]; omega)
    rw [hkey, ← hd] at hback
    rw [back_eq_forward (by omega) hdcap hjd] at hback
    have hdds : d - (d - t) = t := by omega
    rw [hdds] at hback
    obtain ⟨hocc, hdisp, hdist⟩ := hback
    set x := (home ht.capacity k + t) % ht.capacity with hx
    have hxlt : x < ht.capacity := Nat.mod_lt _ hI.cap_pos
    show deleteLoop ht.capacity (fl + 1) ht.entries x (t : Int) k sfuel = _
    unfold deleteLoop
    have hkx : (ht.entries x).key ≠ k := by
      intro hkx
      have hxj : x = j := hI.distinct x hxlt j hj hocc ho (by rw [hkx, hkey])
      rw [hxj] at hdisp
      omega
    rw [if_neg hocc, if_neg (by omega), if_neg hkx]
    have hnext : (x + 1) &&& (ht.capacity - 1)
        = (home ht.capacity k + (t + 1)) % ht.capacity := by
      obtain ⟨m, hm⟩ := hI.cap_pow
      rw [mask_eq_mod m hm, hx, Nat.mod_add_mod, Nat.add_assoc]
    rw [hnext]
    have hcast : (t : Int) + 1 = ((t + 1 : Nat) : Int) := by omega
    rw [hcast]
    exact ih (t + 1) fl hts (by omega)

theorem ht_delete_present {ht : HashTable} (hI : Inv ht) {j : Nat} {k w : List Nat}
    (hst : storedAt ht j k w) (fuel : Nat) (hfuel : ht.capacity < fuel)
    {r : Nat} {ht' : HashTable}
    (hres : ht_delete fuel ht k = some (r, ht')) :
    r = 0 ∧ Inv ht' ∧ ht'.capacity = ht.capacity ∧ ht'.key_size = ht.key_size ∧
      ht'.value_size = ht.value_size ∧ ht'.size = ht.size - 1 ∧
      ¬ hasKey ht' k ∧
      (∀ k2 v2, k2 ≠ k → (stored ht' k2 v2 ↔ stored ht k2 v2)) ∧
      countOccupied ht' = countOccupied ht - 1 := by
  obtain ⟨m, hm⟩ := hI.cap_pow
  have hh : home ht.capacity k < ht.capacity := home_lt hI.cap_pos _
  have hdcap : disp ht.capacity j (home ht.capacity k) < ht.capacity := disp_lt hI.cap_pos _ _
  have hdel := deleteLoop_present hI hst fuel (disp ht.capacity j (home ht.capacity k)) 0 fuel
    (by omega) (by omega)
  have h0 : fnv1 k &&& (ht.capacity - 1) = (home ht.capacity k + 0) % ht.capacity := by
    rw [mask_eq_mod m hm, Nat.add_zero, Nat.mod_eq_of_lt hh]
    rfl
  unfold ht_delete at hres
  rw [h0] at hres
  have hz : ((0:Nat) : Int) = (0 : Int) := rfl
  rw [← hz, hdel] at hres
  obtain ⟨hj, ho, hk, hv⟩ := hst
  set E1 := upd ht.entries j ⟨-1, (ht.entries j).key, (ht.entries j).val⟩ with hE1
  have hE1j : (E1 j).dist = -1 := by rw [hE1, upd_same]
  have hE1ne : ∀ i, i ≠ j → E1 i = ht.entries i := fun i hi => upd_ne _ _ hi
  have hsnj : (j + 1) % ht.capacity ≠ j := succ_ne_self (by have := hI.cap_ge; omega) hj
  have hC1 : 1 ≤ countOccupied ht := by
    have : 0 < (List.range ht.capacity).countP (fun i => (ht.entries i).dist != -1) := by
      apply List.countP_pos.mpr
      exact ⟨j, List.mem_range.mpr hj, by simp [ho]⟩
    unfold countOccupied
    omega
  have hSinit : ShiftInv ht.capacity ht.key_size ht.entries k (countOccupied ht) E1 j := by
    refine ⟨hj, ?_, ?_, ?_, ?_, ?_, ?_, ?_⟩
    · intro i hi hine hoi
      rw [hE1ne i hine] at hoi ⊢
      exact hI.dist_eq i hi hoi
    · intro i hi hine hoi
      rw [hE1ne i hine] at hoi ⊢
      exact hI.keylen i hi hoi
    · intro i1 hi1 i2 hi2 hn1 hn2 ho1 ho2 hkeq
      rw [hE1ne i1 hn1] at ho1 hkeq
      rw [hE1ne i2 hn2] at ho2 hkeq
      exact hI.distinct i1 hi1 i2 hi2 ho1 ho2 hkeq
    · intro i hi hine hinss hoi hdi
      have hpredne : (i + ht.capacity - 1) % ht.capacity ≠ j := by
        intro hpe
        exact hinss (eq_succ_of_pred_eq hi hpe)
      rw [hE1ne i hine] at hoi hdi
      rw [hE1ne i hine, hE1ne _ hpredne]
      exact hI.chain i hi hoi hdi
    · intro hoss hdss
      rw [hE1ne _ hsnj] at hoss hdss
      have hch1 := hI.chain ((j + 1) % ht.capacity) (Nat.mod_lt _ hI.cap_pos) hoss (by omega)
      rw [pred_succ hj] at hch1
      obtain ⟨hoj2, hbd1⟩ := hch1
      have hdj1 : 0 < (ht.entries j).dist := by omega
      obtain ⟨hopj, hbd2⟩ := hI.chain j hj ho hdj1
      have hpredne : (j + ht.capacity - 1) % ht.capacity ≠ j :=
        pred_ne_self (by have := hI.cap_ge; omega) hj
      rw [hE1ne _ hsnj, hE1ne _ hpredne]
      exact ⟨hopj, by omega⟩
    · intro k2 v2
      constructor
      · rintro ⟨i, hi, hine, hoi, hki, hvi⟩
        rw [hE1ne i hine] at hoi hki hvi
        refine ⟨⟨i, hi, hoi, hki, hvi⟩, ?_⟩
        intro hk2
        exact hine (hI.distinct i hi j hj hoi ho (by rw [hki, hk2, hk]))
      · rintro ⟨⟨i, hi, hoi, hki, hvi⟩, hk2⟩
        have hine : i ≠ j := by
          intro hij
          rw [hij, hk] at hki
          exact hk2 hki.symm
        exact ⟨i, hi, hine, by rw [hE1ne i hine]; exact hoi,
          by rw [hE1ne i hine]; exact hki, by rw [hE1ne i hine]; exact hvi⟩
    · rw [if_pos hE1j]
      have hstep : (List.range ht.capacity).countP (fun i => (ht.entries i).dist != -1)
          = (List.range ht.capacity).countP (fun i => (E1 i).dist != -1) + 1 :=
        countP_update_true (fun i => (E1 i).dist != -1) (fun i => (ht.entries i).dist != -1)
          (List.nodup_range _) (List.mem_range.mpr hj)
          (fun a hah => by
            show ((E1 a).dist != -1) = ((ht.entries a).dist != -1)
            rw [hE1ne a hah])
          (by
            show ((E1 j).dist != -1) = false
            rw [hE1j]
            simp)
          (by simp [ho])
      unfold countOccupied
      omega
  rcases hsh : shiftLoop ht.capacity fuel E1 j ((j + 1) &&& (ht.capacity - 1)) with _ | E2
  · rw [hsh] at hres
    exact absurd hres (by simp)
  · rw [hsh] at hres
    simp only [Option.some.injEq, Prod.mk.injEq] at hres
    obtain ⟨hr, hht⟩ := hres
    rw [mask_eq_mod m hm] at hsh
    obtain ⟨hEinv2, hmodel2, hcnt2⟩ := shiftLoop_ok m hm hI.cap_ge ht.entries k
      (countOccupied ht) hC1 fuel E1 j E2 hSinit hsh
    subst hht
    refine ⟨hr.symm, ⟨⟨m, hm⟩, hI.cap_ge, hEinv2⟩, rfl, rfl, rfl, rfl, ?_, ?_, ?_⟩
    · rintro ⟨i, v2, hst2⟩
      have hp : pairAt ht.capacity E2 k v2 := ⟨i, hst2.1, hst2.2.1, hst2.2.2.1, hst2.2.2.2⟩
      exact absurd rfl ((hmodel2 k v2).mp hp).2
    · intro k2 v2 hne
      rw [stored_iff_pairAt, stored_iff_pairAt]
      show pairAt ht.capacity E2 k2 v2 ↔ pairAt ht.capacity ht.entries k2 v2
      rw [hmodel2 k2 v2]
      exact ⟨fun h => h.1, fun h => ⟨h, hne⟩⟩
    · show (List.range ht.capacity).countP _ = _
      rw [hcnt2]

/-! ## Fuel monotonicity: a probe loop that has returned keeps the same
result with any larger fuel (the operations are deterministic; fuel is
only the embedding's termination bound). -/

theorem placeLoop_mono {cap : Nat} :
    ∀ fuel fuel2 E i p kc vc res, fuel ≤ fuel2 →
      placeLoop cap fuel E i p kc vc = some res →
      placeLoop cap fuel2 E i p kc vc = some res := by
  intro fuel
  induction fuel with
  | zero => intro fuel2 E i p kc vc res _ h; exact absurd h (by simp [placeLoop])
  | succ fl ih =>
    intro fuel2 E i p kc vc res hle h
    obtain ⟨f2, rfl⟩ : ∃ f2, fuel2 = f2 + 1 := ⟨fuel2 - 1, by omega⟩
    unfold placeLoop at h ⊢
    by_cases h1 : (E i).dist = -1
    · rw [if_pos h1] at h ⊢; exact h
    · rw [if_neg h1] at h ⊢
      by_cases h2 : (E i).key = kc
      · rw [if_pos h2] at h ⊢; exact h
      · rw [if_neg h2] at h ⊢
        by_cases h3 : (E i).dist < p
        · rw [if_pos h3] at h ⊢
          exact ih f2 _ _ _ _ _ _ (by omega) h
        · rw [if_neg h3] at h ⊢
          exact ih f2 _ _ _ _ _ _ (by omega) h

theorem shiftLoop_mono {cap : Nat} :
    ∀ fuel fuel2 E hole next res, fuel ≤ fuel2 →
      shiftLoop cap fuel E hole next = some res →
      shiftLoop cap fuel2 E hole next = some res := by
  intro fuel
  induction fuel with
  | zero => intro fuel2 E hole next res _ h; exact absurd h (by simp [shiftLoop])
  | succ fl ih =>
    intro fuel2 E hole next res hle h
    obtain ⟨f2, rfl⟩ : ∃ f2, fuel2 = f2 + 1 := ⟨fuel2 - 1, by omega⟩
    unfold shiftLoop at h ⊢
    by_cases h1 : (E next).dist ≤ 0
    · rw [if_pos h1] at h ⊢; exact h
    · rw [if_neg h1] at h ⊢
      exact ih f2 _ _ _ _ (by omega) h

theorem deleteLoop_mono {cap : Nat} :
    ∀ fuel fuel2 sfuel sfuel2 E idx probe k res, fuel ≤ fuel2 → sfuel ≤ sfuel2 →
      deleteLoop cap fuel E idx probe k sfuel = some res →
      deleteLoop cap fuel2 E idx probe k sfuel2 = some res := by
  intro fuel
  induction fuel with
  | zero => intro fuel2 sfuel sfuel2 E idx probe k res _ _ h; exact absurd h (by simp [deleteLoop])
  | succ fl ih =>
    intro fuel2 sfuel sfuel2 E idx probe k res hle hsle h
    obtain ⟨f2, rfl⟩ : ∃ f2, fuel2 = f2 + 1 := ⟨fuel2 - 1, by omega⟩
    unfold deleteLoop at h ⊢
    by_cases h1 : (E idx).dist = -1
    · rw [if_pos h1] at h ⊢; exact h
    · rw [if_neg h1] at h ⊢
      by_cases h2 : probe > (E idx).dist
      · rw [if_pos h2] at h ⊢; exact h
      · rw [if_neg h2] at h ⊢
        by_cases h3 : (E idx).key = k
        · rw [if_pos h3] at h ⊢
          rcases hsh : shiftLoop cap sfuel (upd E idx ⟨-1, (E idx).key, (E idx).val⟩) idx
              ((idx + 1) &&& (cap - 1)) with _ | E2
          · rw [hsh] at h
            exact absurd h (by simp)
          · rw [hsh] at h
            rw [shiftLoop_mono sfuel sfuel2 _ _ _ _ hsle hsh]
            exact h
        · rw [if_neg h3] at h ⊢
          exact ih f2 sfuel sfuel2 _ _ _ _ _ (by omega) hsle h

theorem reinsertFold_mono {cap2 : Nat} (E0 : Nat → Entry) :
    ∀ l fuel fuel2 acc res, fuel ≤ fuel2 →
      reinsertFold cap2 fuel E0 l acc = some res →
      reinsertFold cap2 fuel2 E0 l acc = some res := by
  intro l
  induction l with
  | nil => intro fuel fuel2 acc res _ h; exact h
  | cons i l' ih =>
    intro fuel fuel2 acc res hle h
    obtain ⟨E, sz⟩ := acc
    unfold reinsertFold at h ⊢
    by_cases h1 : 0 ≤ (E0 i).dist
    · rw [if_pos h1] at h ⊢
      rcases hpl : placeLoop cap2 fuel E (fnv1 (E0 i).key &&& (cap2 - 1)) 0 (E0 i).key
          (E0 i).val with _ | p
      · rw [hpl] at h
        exact absurd h (by simp)
      · rw [hpl] at h
        obtain ⟨E2, isNew⟩ := p
        rw [placeLoop_mono fuel fuel2 _ _ _ _ _ _ hle hpl]
        exact ih fuel fuel2 _ _ hle h
    · rw [if_neg h1] at h ⊢
      exact ih fuel fuel2 _ _ hle h

theorem ht_resize_mono {allocOk : Bool} {ht : HashTable} {nc fuel fuel2 : Nat} {res}
    (hle : fuel ≤ fuel2) (h : ht_resize allocOk fuel ht nc = some res) :
    ht_resize allocOk fuel2 ht nc = some res := by
  unfold ht_resize at h ⊢
  by_cases h1 : allocOk = false
  · rw [if_pos h1] at h ⊢; exact h
  · rw [if_neg h1] at h ⊢
    rcases hf : reinsertFold (next_power_of_two nc) fuel ht.entries (List.range ht.capacity)
        (fun _ => ⟨-1, [], []⟩, 0) with _ | p
    · rw [hf] at h
      exact absurd h (by simp)
    · rw [hf] at h
      obtain ⟨E, sz⟩ := p
      rw [reinsertFold_mono ht.entries (List.range ht.capacity) fuel fuel2 _ _ hle hf]
      exact h

theorem rh_place_mono {ht : HashTable} {k v : List Nat} {fuel fuel2 : Nat} {res}
    (hle : fuel ≤ fuel2) (h : rh_place fuel ht k v = some res) :
    rh_place fuel2 ht k v = some res := by
  unfold rh_place at h ⊢
  rcases hpl : placeLoop ht.capacity fuel ht.entries (fnv1 k &&& (ht.capacity - 1)) 0 k v
    with _ | p
  · rw [hpl] at h
    exact absurd h (by simp)
  · rw [hpl] at h
    obtain ⟨E, isNew⟩ := p
    rw [placeLoop_mono fuel fuel2 _ _ _ _ _ _ hle hpl]
    exact h

theorem ht_insert_mono {allocOk : Bool} {ht : HashTable} {k v : List Nat}
    {fuel fuel2 : Nat} {res} (hle : fuel ≤ fuel2)
    (h : ht_insert allocOk fuel ht k v = some res) :
    ht_insert allocOk fuel2 ht k v = some res := by
  unfold ht_insert at h ⊢
  by_cases h1 : 2 * (ht.size + 1) > ht.capacity
  · rw [if_pos h1] at h ⊢
    rcases hr : ht_resize allocOk fuel ht (ht.capacity * 2) with _ | p
    · rw [hr] at h
      exact absurd h (by simp)
    · rw [hr] at h
      obtain ⟨r1, ht1⟩ := p
      rw [ht_resize_mono hle hr]
      have h' : (if r1 ≠ 0 then some (1, ht1) else
          match rh_place fuel ht1 k v with
          | none => none
          | some (ht2, _) => some (0, ht2)) = some res := h
      show (if r1 ≠ 0 then some (1, ht1) else
          match rh_place fuel2 ht1 k v with
          | none => none
          | some (ht2, _) => some (0, ht2)) = some res
      by_cases h2 : r1 ≠ 0
      · rw [if_pos h2] at h' ⊢; exact h'
      · rw [if_neg h2] at h' ⊢
        rcases hp : rh_place fuel ht1 k v with _ | q
        · rw [hp] at h'
          exact absurd h' (by simp)
        · rw [hp] at h'
          obtain ⟨ht2, isNew⟩ := q
          rw [rh_place_mono hle hp]
          exact h'
  · rw [if_neg h1] at h ⊢
    rcases hp : rh_place fuel ht k v with _ | q
    · rw [hp] at h
      exact absurd h (by simp)
    · rw [hp] at h
      obtain ⟨ht2, isNew⟩ := q
      rw [rh_place_mono hle hp]
      exact h

theorem ht_delete_mono {ht : HashTable} {k : List Nat} {fuel fuel2 : Nat} {res}
    (hle : fuel ≤ fuel2) (h : ht_delete fuel ht k = some res) :
    ht_delete fuel2 ht k = some res := by
  unfold ht_delete at h ⊢
  rcases hd : deleteLoop ht.capacity fuel ht.entries (fnv1 k &&& (ht.capacity - 1)) 0 k fuel
    with _ | p
  · rw [hd] at h
    exact absurd h (by simp)
  · rw [hd] at h
    obtain ⟨r, removed, E⟩ := p
    rw [deleteLoop_mono fuel fuel2 fuel fuel2 _ _ _ _ _ hle hle hd]
    exact h

/-! ## Reachable Robin Hood table states -/

/-- Table states reachable from `ht_create` through the mutating
operations of src/ht.h.  Each step is conditioned on the embedded
operation returning (the C loop terminating), with either allocation
outcome; keys are always passed with the table's creation key width, as
the byte-copying C interface requires. -/
inductive Reach : HashTable → Prop where
  | init (ks vs : Nat) : Reach (ht_init ks vs)
  | insert (ht : HashTable) (allocOk : Bool) (fuel : Nat) (k v : List Nat) (r : Nat)
      (ht' : HashTable) : Reach ht → k.length = ht.key_size →
      ht_insert allocOk fuel ht k v = some (r, ht') → Reach ht'
  | remove (ht : HashTable) (fuel : Nat) (k : List Nat) (r : Nat) (ht' : HashTable) :
      Reach ht → ht_delete fuel ht k = some (r, ht') → Reach ht'
  | resize (ht : HashTable) (allocOk : Bool) (fuel : Nat) (r : Nat) (ht' : HashTable) :
      Reach ht → ht_resize allocOk fuel ht (ht.capacity * 2) = some (r, ht') → Reach ht'
  | reset (ht : HashTable) : Reach ht → Reach (ht_reset ht)

theorem ht_init_capacity (ks vs : Nat) : (ht_init ks vs).capacity = 8 := by
  show next_power_of_two INITIAL_CAPACITY = 8
  decide

theorem ht_init_inv (ks vs : Nat) : Inv (ht_init ks vs) := by
  refine ⟨⟨3, (ht_init_capacity ks vs).trans (by decide)⟩, (ht_init_capacity ks vs).ge,
    ?_, ?_, ?_, ?_⟩
  · intro i _ ho
    exact absurd rfl ho
  · intro i _ ho
    exact absurd rfl ho
  · intro i _ j _ ho
    exact absurd rfl ho
  · intro i _ ho
    exact absurd rfl ho

theorem ht_reset_inv {ht : HashTable} (hI : Inv ht) : Inv (ht_reset ht) := by
  refine ⟨hI.cap_pow, hI.cap_ge, ?_, ?_, ?_, ?_⟩
  · intro i _ ho
    exact absurd rfl ho
  · intro i _ ho
    exact absurd rfl ho
  · intro i _ j _ ho
    exact absurd rfl ho
  · intro i _ ho
    exact absurd rfl ho

theorem ht_insert_inv {allocOk : Bool} {ht : HashTable} {k v : List Nat} {fuel r : Nat}
    {ht' : HashTable} (hI : Inv ht) (hk : k.length = ht.key_size)
    (hres : ht_insert allocOk fuel ht k v = some (r, ht')) : Inv ht' := by
  rcases allocOk with _ | _
  · unfold ht_insert at hres
    by_cases hload : 2 * (ht.size + 1) > ht.capacity
    · rw [if_pos hload] at hres
      have hrz : ht_resize false fuel ht (ht.capacity * 2) = some (1, { ht with size := 0 }) := by
        unfold ht_resize
        rw [if_pos rfl]
      rw [hrz] at hres
      have hres2 : (if (1:Nat) ≠ 0 then some ((1:Nat), { ht with size := 0 }) else
          match rh_place fuel { ht with size := 0 } k v with
          | none => none
          | some (ht2, _) => some (0, ht2)) = some (r, ht') := hres
      rw [if_pos (by omega)] at hres2
      simp only [Option.some.injEq, Prod.mk.injEq] at hres2
      obtain ⟨_, hht⟩ := hres2
      rw [← hht]
      exact ⟨hI.cap_pow, hI.cap_ge, hI.einv⟩
    · rw [if_neg hload] at hres
      have htrue : ht_insert true fuel ht k v = some (r, ht') := by
        unfold ht_insert
        rw [if_neg hload]
        exact hres
      have hbig := ht_insert_mono (le_max_left fuel (2 * ht.capacity + 1)) htrue
      exact (ht_insert_some hI hk
        (lt_of_lt_of_le (by omega) (le_max_right fuel (2 * ht.capacity + 1))) hbig).2.1
  · have hbig := ht_insert_mono (le_max_left fuel (2 * ht.capacity + 1)) hres
    exact (ht_insert_some hI hk
      (lt_of_lt_of_le (by omega) (le_max_right fuel (2 * ht.capacity + 1))) hbig).2.1

theorem ht_delete_inv {ht : HashTable} {k : List Nat} {fuel r : Nat} {ht' : HashTable}
    (hI : Inv ht) (hres : ht_delete fuel ht k = some (r, ht')) : Inv ht' := by
  have hbig := ht_delete_mono (le_max_left fuel (ht.capacity + 1)) hres
  by_cases hhk : hasKey ht k
  · obtain ⟨j, w, hst⟩ := hhk
    exact (ht_delete_present hI hst (max fuel (ht.capacity + 1))
      (lt_of_lt_of_le (by omega) (le_max_right fuel (ht.capacity + 1))) hbig).2.1
  · have habs := ht_delete_absent hI hhk (max fuel (ht.capacity + 1))
      (lt_of_lt_of_le (by omega) (le_max_right fuel (ht.capacity + 1)))
    rw [habs] at hbig
    simp only [Option.some.injEq, Prod.mk.injEq] at hbig
    obtain ⟨_, hht⟩ := hbig
    rw [← hht]
    exact hI

theorem ht_resize_inv {allocOk : Bool} {ht : HashTable} {fuel r : Nat} {ht' : HashTable}
    (hI : Inv ht) (hres : ht_resize allocOk fuel ht (ht.capacity * 2) = some (r, ht')) :
    Inv ht' := by
  rcases allocOk with _ | _
  · unfold ht_resize at hres
    rw [if_pos rfl] at hres
    simp only [Option.some.injEq, Prod.mk.injEq] at hres
    obtain ⟨_, hht⟩ := hres
    rw [← hht]
    exact ⟨hI.cap_pow, hI.cap_ge, hI.einv⟩
  · have hbig := ht_resize_mono (le_max_left fuel (2 * ht.capacity)) hres
    obtain ⟨ht2, heq, hI2, _⟩ := ht_resize_ok hI (max fuel (2 * ht.capacity))
      (le_max_right fuel (2 * ht.capacity))
    rw [heq] at hbig
    simp only [Option.some.injEq, Prod.mk.injEq] at hbig
    obtain ⟨_, hht⟩ := hbig
    rw [← hht]
    exact hI2

theorem Reach_inv {ht : HashTable} (hR : Reach ht) : Inv ht := by
  induction hR with
  | init ks vs => exact ht_init_inv ks vs
  | insert ht allocOk fuel k v r ht' hR hk hres ih => exact ht_insert_inv ih hk hres
  | remove ht fuel k r ht' hR hres ih => exact ht_delete_inv ih hres
  | resize ht allocOk fuel r ht' hR hres ih => exact ht_resize_inv ih hres
  | reset ht hR ih => exact ht_reset_inv ih

/-! ## Embedding of src/tp_dtable.h — tiny-pointer dereference table

Configuration constants (src/tp_dtable.h lines 63–68), with the
double-precision expressions evaluated:
`MAX_CAPACITY = 2^20`; `DELTA = 1/ln(ln(2^20)) ≈ 0.380341`;
`PRIMARY_BUCKET_SIZE = (uint32_t)(16 · δ⁻² · max(ln(1/δ),1)) =
(uint32_t)110.6056… = 110`; `SECONDARY_BUCKET_SIZE =
(uint32_t)log2(log2(2^20)) = (uint32_t)4.3219… = 4`.  The values are far
from the truncation boundaries, so double rounding cannot change them. -/

/-- MAX_CAPACITY (src/tp_dtable.h line 63). -/
def MAX_CAPACITY : Nat := 1048576

/-- The dereference table's INITIAL_CAPACITY (src/tp_dtable.h line 64). -/
def DT_INITIAL_CAPACITY : Nat := 64

/-- PRIMARY_BUCKET_SIZE (src/tp_dtable.h line 67), evaluated. -/
def PRIMARY_BUCKET_SIZE : Nat := 110

/-- SECONDARY_BUCKET_SIZE (src/tp_dtable.h line 68), evaluated. -/
def SECONDARY_BUCKET_SIZE : Nat := 4

/-- The seeded FNV-1a hash `hash_key` (src/tp_dtable.h lines 75–83),
32-bit wrap-around explicit. -/
def hash_key (key : List Nat) (seed : Nat) : Nat :=
  key.foldl (fun h b => ((h ^^^ b) * 16777619) % 4294967296) seed

/-- Primary-table seed 0xABCDEF01 (src/tp_dtable.h line 198). -/
def PRIMARY_SEED : Nat := 2882400001

/-- Secondary-table seed 0x12345678 (src/tp_dtable.h line 202). -/
def SECONDARY_SEED : Nat := 305419896

/-- The `lb_table_t` struct (src/tp_dtable.h lines 17–26).  The key,
value, and bitmap arrays are reserved for `MAX_CAPACITY` slots up front;
they are modelled as total functions from slot index. -/
structure LbTable where
  num_buckets : Nat
  slots_per_bucket : Nat
  key_size : Nat
  value_size : Nat
  count : Nat
  keys : Nat → List Nat
  values : Nat → List Nat
  bitmap : Nat → Bool

/-- The `dt_t` struct (src/tp_dtable.h lines 32–35). -/
structure DtState where
  primary : LbTable
  secondary : LbTable

/-- `lb_create` (src/tp_dtable.h lines 107–119): the mmap'd arrays are
zero-filled, so the keys and values start as all-zero byte records. -/
def lb_create (key_size value_size slots_per_bucket initial_capacity : Nat) : LbTable :=
  { slots_per_bucket := slots_per_bucket
    num_buckets := max 1 (initial_capacity / slots_per_bucket)
    key_size := key_size
    value_size := value_size
    count := initial_capacity
    keys := fun _ => List.replicate key_size 0
    values := fun _ => List.replicate value_size 0
    bitmap := fun _ => false }

/-- `lb_grow` (src/tp_dtable.h lines 125–132): double the active count
up to `MAX_CAPACITY` and recompute `num_buckets = count /
slots_per_bucket`; returns 0 (no change) when already at the maximum. -/
def lb_grow (t : LbTable) : Nat × LbTable :=
  if t.count ≥ MAX_CAPACITY then (0, t)
  else
    let c := min (2 * t.count) MAX_CAPACITY
    (1, { t with count := c, num_buckets := c / t.slots_per_bucket })

/-- The bucket scan of `lb_insert` (src/tp_dtable.h lines 143–153): the
first slot offset `i < slots_per_bucket` whose bitmap bit is clear.
Structural recursion on the number of remaining slots. -/
def lbScanFree (t : LbTable) (base : Nat) : Nat → Nat → Option Nat
  | 0, _ => none
  | n+1, i => if t.bitmap (base + i) = false then some i else lbScanFree t base n (i + 1)

/-- `lb_insert` (src/tp_dtable.h lines 139–155): hash with the seed,
pick the bucket, scan it for the first free slot, set the bit and copy
the record; `none` when the bucket is full. -/
def lb_insert (t : LbTable) (k v : List Nat) (seed : Nat) :
    Option (Nat × Nat × LbTable) :=
  let bucket := hash_key k seed % t.num_buckets
  let base := bucket * t.slots_per_bucket
  match lbScanFree t base t.slots_per_bucket 0 with
  | none => none
  | some i =>
      some (bucket, i,
        { t with
          bitmap := fun p => if p = base + i then true else t.bitmap p
          keys := fun p => if p = base + i then k else t.keys p
          values := fun p => if p = base + i then v else t.values p })

/-- `dt_create` (src/tp_dtable.h lines 167–172). -/
def dt_create (key_size value_size : Nat) : DtState :=
  { primary := lb_create key_size value_size PRIMARY_BUCKET_SIZE DT_INITIAL_CAPACITY
    secondary := lb_create key_size value_size SECONDARY_BUCKET_SIZE DT_INITIAL_CAPACITY }

/-- `dt_insert` as implemented (src/tp_dtable.h lines 195–209): try the
primary bucket; on a full bucket grow the primary (the growth persists
even when the retry then fails) and retry once; then the secondary the
same way.  Returns the C `int` result (1 success, 0 failure) — the
computed bucket/slot are discarded, and no `tiny_ptr_t` is built,
despite the prototype on line 41. -/
def dt_insert (dt : DtState) (k v : List Nat) : Nat × DtState :=
  match lb_insert dt.primary k v PRIMARY_SEED with
  | some (_, _, p1) => (1, { dt with primary := p1 })
  | none =>
    let (g, pg) := lb_grow dt.primary
    match (if g = 1 then lb_insert pg k v PRIMARY_SEED else none) with
    | some (_, _, p2) => (1, { dt with primary := p2 })
    | none =>
      let dt1 : DtState := { dt with primary := pg }
      match lb_insert dt1.secondary k v SECONDARY_SEED with
      | some (_, _, s1) => (1, { dt1 with secondary := s1 })
      | none =>
        let (g2, sg) := lb_grow dt1.secondary
        match (if g2 = 1 then lb_insert sg k v SECONDARY_SEED else none) with
        | some (_, _, s2) => (1, { dt1 with secondary := s2 })
        | none => (0, { dt1 with secondary := sg })

/-- The bucket scan shared by `dt_lookup` (src/tp_dtable.h lines
216–225, 228–237) and `dt_delete` (lines 244–253, 256–265): the first
slot offset `i < slots_per_bucket` that is occupied and holds `k`. -/
def lbScanMatch (t : LbTable) (base : Nat) (k : List Nat) : Nat → Nat → Option Nat
  | 0, _ => none
  | n+1, i =>
    if t.bitmap (base + i) = true ∧ t.keys (base + i) = k then some i
    else lbScanMatch t base k n (i + 1)

/-- Re-derive the bucket of `k` in `t` under `seed` and scan it for `k`,
returning the matching absolute slot position. -/
def lbFindSlot (t : LbTable) (k : List Nat) (seed : Nat) : Option Nat :=
  let bucket := hash_key k seed % t.num_buckets
  let base := bucket * t.slots_per_bucket
  match lbScanMatch t base k t.slots_per_bucket 0 with
  | none => none
  | some i => some (base + i)

/-- `dt_lookup` (src/tp_dtable.h lines 213–239): scan the key's primary
bucket, then its secondary bucket; `some` value bytes on the first
match. -/
def dt_lookup (dt : DtState) (k : List Nat) : Option (List Nat) :=
  match lbFindSlot dt.primary k PRIMARY_SEED with
  | some pos => some (dt.primary.values pos)
  | none =>
    match lbFindSlot dt.secondary k SECONDARY_SEED with
    | some pos => some (dt.secondary.values pos)
    | none => none

/-- Clear slot `pos` of `t`: clear the bitmap bit and zero the key and
value bytes (the two `memset`s of `dt_delete`). -/
def lbClear (t : LbTable) (pos : Nat) : LbTable :=
  { t with
    bitmap := fun p => if p = pos then false else t.bitmap p
    keys := fun p => if p = pos then List.replicate t.key_size 0 else t.keys p
    values := fun p => if p = pos then List.replicate t.value_size 0 else t.values p }

/-- `dt_delete` (src/tp_dtable.h lines 241–267): scan the key's primary
bucket then its secondary bucket; on the first match clear the slot and
return 1; otherwise return 0 with the state unchanged. -/
def dt_delete (dt : DtState) (k : List Nat) : Nat × DtState :=
  match lbFindSlot dt.primary k PRIMARY_SEED with
  | some pos => (1, { dt with primary := lbClear dt.primary pos })
  | none =>
    match lbFindSlot dt.secondary k SECONDARY_SEED with
    | some pos => (1, { dt with secondary := lbClear dt.secondary pos })
    | none => (0, dt)

/-- `dt_reset` (src/tp_dtable.h lines 269–283): restore the initial
active count and bucket number of both tables and zero the bitmap and
the key/value storage. -/
def lbResetTable (t : LbTable) : LbTable :=
  { t with
    count := DT_INITIAL_CAPACITY
    num_buckets := max 1 (DT_INITIAL_CAPACITY / t.slots_per_bucket)
    bitmap := fun _ => false
    keys := fun _ => List.replicate t.key_size 0
    values := fun _ => List.replicate t.value_size 0 }

/-- `dt_reset`, combining both tables. -/
def dt_reset (dt : DtState) : DtState :=
  { primary := lbResetTable dt.primary, secondary := lbResetTable dt.secondary }

/-! ## Specification-side views of a load-balancing table -/

/-- No slot of `t` (anywhere in the reserved arrays) is occupied and
holding key `k`. -/
def lbAbsent (t : LbTable) (k : List Nat) : Prop :=
  ∀ p, ¬(t.bitmap p = true ∧ t.keys p = k)

/-- At most one slot across the two tables of `dt` is occupied and holds
key `k` (the state left by insertions of pairwise distinct keys). -/
def dtAtMostOne (dt : DtState) (k : List Nat) : Prop :=
  (∀ p q, dt.primary.bitmap p = true → dt.primary.keys p = k →
    dt.primary.bitmap q = true → dt.primary.keys q = k → p = q) ∧
  (∀ p q, dt.secondary.bitmap p = true → dt.secondary.keys p = k →
    dt.secondary.bitmap q = true → dt.secondary.keys q = k → p = q) ∧
  ¬((∃ p, dt.primary.bitmap p = true ∧ dt.primary.keys p = k) ∧
    (∃ q, dt.secondary.bitmap q = true ∧ dt.secondary.keys q = k))

/-! ## Characterization of the bucket scans -/

theorem lbScanFree_some {t : LbTable} {base : Nat} :
    ∀ n j i, lbScanFree t base n j = some i →
      j ≤ i ∧ i < j + n ∧ t.bitmap (base + i) = false ∧
      ∀ m, j ≤ m → m < i → t.bitmap (base + m) = true := by
  intro n
  induction n with
  | zero => intro j i h; exact absurd h (by simp [lbScanFree])
  | succ n ih =>
    intro j i h
    unfold lbScanFree at h
    by_cases hb : t.bitmap (base + j) = false
    · rw [if_pos hb] at h
      have hji : j = i := by injection h
      refine ⟨by omega, by omega, by rw [← hji]; exact hb, ?_⟩
      intro m hm1 hm2
      omega
    · rw [if_neg hb] at h
      obtain ⟨h1, h2, h3, h4⟩ := ih (j + 1) i h
      refine ⟨by omega, by omega, h3, ?_⟩
      intro m hm1 hm2
      by_cases hmj : m = j
      · rw [hmj]
        cases hbb : t.bitmap (base + j) with
        | false => exact absurd hbb hb
        | true => rfl
      · exact h4 m (by omega) hm2

theorem lbScanMatch_some {t : LbTable} {base : Nat} {k : List Nat} :
    ∀ n j i, lbScanMatch t base k n j = some i →
      j ≤ i ∧ i < j + n ∧ t.bitmap (base + i) = true ∧ t.keys (base + i) = k ∧
      ∀ m, j ≤ m → m < i → ¬(t.bitmap (base + m) = true ∧ t.keys (base + m) = k) := by
  intro n
  induction n with
  | zero => intro j i h; exact absurd h (by simp [lbScanMatch])
  | succ n ih =>
    intro j i h
    unfold lbScanMatch at h
    by_cases hb : t.bitmap (base + j) = true ∧ t.keys (base + j) = k
    · rw [if_pos hb] at h
      have hji : j = i := by injection h
      refine ⟨by omega, by omega, by rw [← hji]; exact hb.1, by rw [← hji]; exact hb.2, ?_⟩
      intro m hm1 hm2
      omega
    · rw [if_neg hb] at h
      obtain ⟨h1, h2, h3, h4, h5⟩ := ih (j + 1) i h
      refine ⟨by omega, by omega, h3, h4, ?_⟩
      intro m hm1 hm2
      by_cases hmj : m = j
      · rw [hmj]; exact hb
      · exact h5 m (by omega) hm2

theorem lbScanMatch_none {t : LbTable} {base : Nat} {k : List Nat} :
    ∀ n j, lbScanMatch t base k n j = none →
      ∀ m, j ≤ m → m < j + n → ¬(t.bitmap (base + m) = true ∧ t.keys (base + m) = k) := by
  intro n
  induction n with
  | zero => intro j _ m hm1 hm2; omega
  | succ n ih =>
    intro j h m hm1 hm2
    unfold lbScanMatch at h
    by_cases hb : t.bitmap (base + j) = true ∧ t.keys (base + j) = k
    · rw [if_pos hb] at h
      exact absurd h (by simp)
    · rw [if_neg hb] at h
      by_cases hmj : m = j
      · rw [hmj]; exact hb
      · exact ih (j + 1) h m (by omega) (by omega)

theorem lbScanMatch_none_of {t : LbTable} {base : Nat} {k : List Nat} :
    ∀ n j, (∀ m, j ≤ m → m < j + n → ¬(t.bitmap (base + m) = true ∧ t.keys (base + m) = k)) →
      lbScanMatch t base k n j = none := by
  intro n
  induction n with
  | zero => intro j _; rfl
  | succ n ih =>
    intro j hno
    unfold lbScanMatch
    rw [if_neg (hno j (le_refl j) (by omega))]
    exact ih (j + 1) (fun m hm1 hm2 => hno m (by omega) (by omega))

theorem lbScanMatch_finds {t : LbTable} {base : Nat} {k : List Nat} :
    ∀ n j i, j ≤ i → i < j + n →
      t.bitmap (base + i) = true → t.keys (base + i) = k →
      (∀ m, j ≤ m → m < i → ¬(t.bitmap (base + m) = true ∧ t.keys (base + m) = k)) →
      lbScanMatch t base k n j = some i := by
  intro n
  induction n with
  | zero => intro j i h1 h2; omega
  | succ n ih =>
    intro j i h1 h2 hb hk hno
    unfold lbScanMatch
    by_cases hji : j = i
    · rw [if_pos (by rw [hji]; exact ⟨hb, hk⟩)]
      rw [hji]
    · rw [if_neg (hno j (le_refl j) (by omega))]
      exact ih (j + 1) i (by omega) (by omega) hb hk
        (fun m hm1 hm2 => hno m (by omega) hm2)

theorem lbFindSlot_absent {t : LbTable} {k : List Nat} (seed : Nat)
    (habs : lbAbsent t k) : lbFindSlot t k seed = none := by
  show (match lbScanMatch t (hash_key k seed % t.num_buckets * t.slots_per_bucket) k
      t.slots_per_bucket 0 with
    | none => none
    | some i => some (hash_key k seed % t.num_buckets * t.slots_per_bucket + i)) = none
  rw [lbScanMatch_none_of t.slots_per_bucket 0 (fun m _ _ => habs _)]

theorem lbFindSlot_some {t : LbTable} {k : List Nat} {seed pos : Nat}
    (h : lbFindSlot t k seed = some pos) :
    t.bitmap pos = true ∧ t.keys pos = k := by
  have h' : (match lbScanMatch t (hash_key k seed % t.num_buckets * t.slots_per_bucket) k
      t.slots_per_bucket 0 with
    | none => none
    | some i => some (hash_key k seed % t.num_buckets * t.slots_per_bucket + i))
      = some pos := h
  rcases hs : lbScanMatch t (hash_key k seed % t.num_buckets * t.slots_per_bucket) k
      t.slots_per_bucket 0 with _ | i
  · rw [hs] at h'
    exact absurd h' (by simp)
  · rw [hs] at h'
    obtain ⟨_, _, hb, hk, _⟩ := lbScanMatch_some t.slots_per_bucket 0 i hs
    have hpos : hash_key k seed % t.num_buckets * t.slots_per_bucket + i = pos := by
      injection h'
    rw [← hpos]
    exact ⟨hb, hk⟩

/-- `lb_grow` never changes the stored slots, only the active count and
the bucket count. -/
theorem lb_grow_fields (t : LbTable) :
    (lb_grow t).2.bitmap = t.bitmap ∧ (lb_grow t).2.keys = t.keys ∧
    (lb_grow t).2.values = t.values ∧
    (lb_grow t).2.slots_per_bucket = t.slots_per_bucket ∧
    (lb_grow t).2.key_size = t.key_size ∧ (lb_grow t).2.value_size = t.value_size := by
  unfold lb_grow
  by_cases hc : t.count ≥ MAX_CAPACITY
  · rw [if_pos hc]
    exact ⟨rfl, rfl, rfl, rfl, rfl, rfl⟩
  · rw [if_neg hc]
    exact ⟨rfl, rfl, rfl, rfl, rfl, rfl⟩

theorem lbAbsent_grow {t : LbTable} {k : List Nat} (habs : lbAbsent t k) :
    lbAbsent (lb_grow t).2 k := by
  intro p
  rw [(lb_grow_fields t).1, (lb_grow_fields t).2.1]
  exact habs p

/-- A successful `lb_insert` of a key no slot holds places the record at
the first free slot of its bucket, and the re-derived scan of the
resulting table finds exactly that slot. -/
theorem lb_insert_lookup {t : LbTable} {k v : List Nat} {seed : Nat} {b i : Nat}
    {t' : LbTable} (habs : lbAbsent t k) (h : lb_insert t k v seed = some (b, i, t')) :
    lbFindSlot t' k seed = some (b * t.slots_per_bucket + i) ∧
    t'.values (b * t.slots_per_bucket + i) = v := by
  have h' : (match lbScanFree t (hash_key k seed % t.num_buckets * t.slots_per_bucket)
      t.slots_per_bucket 0 with
    | none => none
    | some i0 =>
        some (hash_key k seed % t.num_buckets, i0,
          { t with
            bitmap := fun p =>
              if p = hash_key k seed % t.num_buckets * t.slots_per_bucket + i0 then true
              else t.bitmap p
            keys := fun p =>
              if p = hash_key k seed % t.num_buckets * t.slots_per_bucket + i0 then k
              else t.keys p
            values := fun p =>
              if p = hash_key k seed % t.num_buckets * t.slots_per_bucket + i0 then v
              else t.values p })) = some (b, i, t') := h
  rcases hs : lbScanFree t (hash_key k seed % t.num_buckets * t.slots_per_bucket)
      t.slots_per_bucket 0 with _ | i0
  · rw [hs] at h'
    exact absurd h' (by simp)
  · rw [hs] at h'
    simp only [Option.some.injEq, Prod.mk.injEq] at h'
    obtain ⟨hb, hi, ht'⟩ := h'
    obtain ⟨_, hi0lt, hfree, hpref⟩ := lbScanFree_some t.slots_per_bucket 0 i0 hs
    subst hb hi
    set base := hash_key k seed % t.num_buckets * t.slots_per_bucket with hbase
    have hnb : t'.num_buckets = t.num_buckets := by rw [← ht']
    have hspb : t'.slots_per_bucket = t.slots_per_bucket := by rw [← ht']
    have hbit : ∀ p, t'.bitmap p = if p = base + i0 then true else t.bitmap p := by
      intro p
      rw [← ht']
    have hkeys : ∀ p, t'.keys p = if p = base + i0 then k else t.keys p := by
      intro p
      rw [← ht']
    have hvals : ∀ p, t'.values p = if p = base + i0 then v else t.values p := by
      intro p
      rw [← ht']
    constructor
    · show (match lbScanMatch t' (hash_key k seed % t'.num_buckets * t'.slots_per_bucket) k
          t'.slots_per_bucket 0 with
        | none => none
        | some i1 => some (hash_key k seed % t'.num_buckets * t'.slots_per_bucket + i1))
        = some (base + i0)
      rw [hnb, hspb, ← hbase]
      have hfind : lbScanMatch t' base k t.slots_per_bucket 0 = some i0 := by
        apply lbScanMatch_finds t.slots_per_bucket 0 i0 (Nat.zero_le _) (by omega)
          (by rw [hbit, if_pos rfl]) (by rw [hkeys, if_pos rfl])
        intro m _ hm
        rw [hbit, hkeys, if_neg (by omega), if_neg (by omega)]
        exact habs (base + m)
      rw [hfind]
    · rw [hvals, if_pos rfl]

/-- Clearing a slot leaves every other slot unchanged and the cleared
slot unoccupied. -/
theorem lbClear_bitmap (t : LbTable) (pos p : Nat) :
    (lbClear t pos).bitmap p = if p = pos then false else t.bitmap p := rfl

theorem lbClear_keys (t : LbTable) (pos p : Nat) :
    (lbClear t pos).keys p = if p = pos then List.replicate t.key_size 0 else t.keys p := rfl

/-! ## dt_delete and dt_lookup run the same scans -/

theorem dt_delete_code (dt : DtState) (k : List Nat) :
    (((dt_delete dt k).1 = 1) ↔ (dt_lookup dt k).isSome = true) ∧
    (((dt_delete dt k).1 = 0) ↔ (dt_lookup dt k).isSome = false) := by
  unfold dt_delete dt_lookup
  rcases h1 : lbFindSlot dt.primary k PRIMARY_SEED with _ | pos
  · rcases h2 : lbFindSlot dt.secondary k SECONDARY_SEED with _ | pos2
    · simp
    · simp
  · simp

theorem dt_delete_of_lookup_none {dt : DtState} {k : List Nat}
    (h : dt_lookup dt k = none) : dt_delete dt k = (0, dt) := by
  unfold dt_lookup at h
  unfold dt_delete
  rcases h1 : lbFindSlot dt.primary k PRIMARY_SEED with _ | pos
  · rw [h1] at h
    rcases h2 : lbFindSlot dt.secondary k SECONDARY_SEED with _ | pos2
    · rfl
    · rw [h2] at h
      exact absurd h (by simp)
  · rw [h1] at h
    exact absurd h (by simp)

/-- Deleting a key of which at most one copy exists across the two
tables makes it unfindable. -/
theorem dt_delete_unique {dt : DtState} {k : List Nat}
    (hu : dtAtMostOne dt k) : dt_lookup (dt_delete dt k).2 k = none := by
  obtain ⟨hup, hus, hcross⟩ := hu
  unfold dt_delete
  rcases h1 : lbFindSlot dt.primary k PRIMARY_SEED with _ | pos
  · rcases h2 : lbFindSlot dt.secondary k SECONDARY_SEED with _ | pos
    · show dt_lookup dt k = none
      unfold dt_lookup
      rw [h1, h2]
    · obtain ⟨hbp, hkp⟩ := lbFindSlot_some h2
      show dt_lookup { dt with secondary := lbClear dt.secondary pos } k = none
      unfold dt_lookup
      show (match lbFindSlot dt.primary k PRIMARY_SEED with
        | some q => some (dt.primary.values q)
        | none =>
          match lbFindSlot (lbClear dt.secondary pos) k SECONDARY_SEED with
          | some q => some ((lbClear dt.secondary pos).values q)
          | none => none) = none
      rw [h1, lbFindSlot_absent SECONDARY_SEED ?_]
      intro q hq
      rw [lbClear_bitmap, lbClear_keys] at hq
      by_cases hqp : q = pos
      · rw [if_pos hqp] at hq
        exact absurd hq.1 (by simp)
      · rw [if_neg hqp, if_neg hqp] at hq
        exact hqp (hus q pos hq.1 hq.2 hbp hkp)
  · obtain ⟨hbp, hkp⟩ := lbFindSlot_some h1
    show dt_lookup { dt with primary := lbClear dt.primary pos } k = none
    unfold dt_lookup
    show (match lbFindSlot (lbClear dt.primary pos) k PRIMARY_SEED with
      | some q => some ((lbClear dt.primary pos).values q)
      | none =>
        match lbFindSlot dt.secondary k SECONDARY_SEED with
        | some q => some (dt.secondary.values q)
        | none => none) = none
    rw [lbFindSlot_absent PRIMARY_SEED ?_, lbFindSlot_absent SECONDARY_SEED ?_]
    · intro q hq
      exact hcross ⟨⟨pos, hbp, hkp⟩, ⟨q, hq⟩⟩
    · intro q hq
      rw [lbClear_bitmap, lbClear_keys] at hq
      by_cases hqp : q = pos
      · rw [if_pos hqp] at hq
        exact absurd hq.1 (by simp)
      · rw [if_neg hqp, if_neg hqp] at hq
        exact hqp (hup q pos hq.1 hq.2 hbp hkp)

/-! ## dt_insert of a globally fresh key is findable afterwards -/

theorem dt_insert_fresh {dt : DtState} {k v : List Nat} {dt' : DtState}
    (hp : lbAbsent dt.primary k) (hs : lbAbsent dt.secondary k)
    (h : dt_insert dt k v = (1, dt')) :
    dt_lookup dt' k = some v := by
  have h2 : (match lb_insert dt.primary k v PRIMARY_SEED with
    | some (_, _, p1) => ((1:Nat), DtState.mk p1 dt.secondary)
    | none =>
      match (if (lb_grow dt.primary).1 = 1
          then lb_insert (lb_grow dt.primary).2 k v PRIMARY_SEED else none) with
      | some (_, _, p2) => (1, DtState.mk p2 dt.secondary)
      | none =>
        match lb_insert dt.secondary k v SECONDARY_SEED with
        | some (_, _, s1) => (1, DtState.mk (lb_grow dt.primary).2 s1)
        | none =>
          match (if (lb_grow dt.secondary).1 = 1
              then lb_insert (lb_grow dt.secondary).2 k v SECONDARY_SEED else none) with
          | some (_, _, s2) => (1, DtState.mk (lb_grow dt.primary).2 s2)
          | none => (0, DtState.mk (lb_grow dt.primary).2 (lb_grow dt.secondary).2))
      = (1, dt') := h
  rcases h1 : lb_insert dt.primary k v PRIMARY_SEED with _ | p
  · rw [h1] at h2
    rcases hr : (if (lb_grow dt.primary).1 = 1
        then lb_insert (lb_grow dt.primary).2 k v PRIMARY_SEED else none) with _ | p2
    · rw [hr] at h2
      rcases h3 : lb_insert dt.secondary k v SECONDARY_SEED with _ | s
      · rw [h3] at h2
        rcases hr2 : (if (lb_grow dt.secondary).1 = 1
            then lb_insert (lb_grow dt.secondary).2 k v SECONDARY_SEED else none) with _ | s2
        · rw [hr2] at h2
          exact absurd h2 (by simp)
        · rw [hr2] at h2
          obtain ⟨b2, i2, s2t⟩ := s2
          have hg2 : lb_insert (lb_grow dt.secondary).2 k v SECONDARY_SEED
              = some (b2, i2, s2t) := by
            by_cases hcond : (lb_grow dt.secondary).1 = 1
            · rw [if_pos hcond] at hr2
              exact hr2
            · rw [if_neg hcond] at hr2
              exact absurd hr2 (by simp)
          obtain ⟨hfind, hval⟩ := lb_insert_lookup (lbAbsent_grow hs) hg2
          simp only [Prod.mk.injEq] at h2
          rw [← h2.2]
          unfold dt_lookup
          show (match lbFindSlot (lb_grow dt.primary).2 k PRIMARY_SEED with
            | some pos => some ((lb_grow dt.primary).2.values pos)
            | none =>
              match lbFindSlot s2t k SECONDARY_SEED with
              | some pos => some (s2t.values pos)
              | none => none) = some v
          rw [lbFindSlot_absent PRIMARY_SEED (lbAbsent_grow hp), hfind]
          show some (s2t.values
            (b2 * (lb_grow dt.secondary).2.slots_per_bucket + i2)) = some v
          rw [hval]
      · rw [h3] at h2
        obtain ⟨b1, i1, s1t⟩ := s
        obtain ⟨hfind, hval⟩ := lb_insert_lookup hs h3
        simp only [Prod.mk.injEq] at h2
        rw [← h2.2]
        unfold dt_lookup
        show (match lbFindSlot (lb_grow dt.primary).2 k PRIMARY_SEED with
          | some pos => some ((lb_grow dt.primary).2.values pos)
          | none =>
            match lbFindSlot s1t k SECONDARY_SEED with
            | some pos => some (s1t.values pos)
            | none => none) = some v
        rw [lbFindSlot_absent PRIMARY_SEED (lbAbsent_grow hp), hfind]
        show some (s1t.values (b1 * dt.secondary.slots_per_bucket + i1)) = some v
        rw [hval]
    · rw [hr] at h2
      obtain ⟨b2, i2, p2t⟩ := p2
      have hg : lb_insert (lb_grow dt.primary).2 k v PRIMARY_SEED = some (b2, i2, p2t) := by
        by_cases hcond : (lb_grow dt.primary).1 = 1
        · rw [if_pos hcond] at hr
          exact hr
        · rw [if_neg hcond] at hr
          exact absurd hr (by simp)
      obtain ⟨hfind, hval⟩ := lb_insert_lookup (lbAbsent_grow hp) hg
      simp only [Prod.mk.injEq] at h2
      rw [← h2.2]
      unfold dt_lookup
      show (match lbFindSlot p2t k PRIMARY_SEED with
        | some pos => some (p2t.values pos)
        | none =>
          match lbFindSlot dt.secondary k SECONDARY_SEED with
          | some pos => some (dt.secondary.values pos)
          | none => none) = some v
      rw [hfind]
      show some (p2t.values (b2 * (lb_grow dt.primary).2.slots_per_bucket + i2)) = some v
      rw [hval]
  · rw [h1] at h2
    obtain ⟨b1, i1, p1t⟩ := p
    obtain ⟨hfind, hval⟩ := lb_insert_lookup hp h1
    simp only [Prod.mk.injEq] at h2
    rw [← h2.2]
    unfold dt_lookup
    show (match lbFindSlot p1t k PRIMARY_SEED with
      | some pos => some (p1t.values pos)
      | none =>
        match lbFindSlot dt.secondary k SECONDARY_SEED with
        | some pos => some (dt.secondary.values pos)
        | none => none) = some v
    rw [hfind]
    show some (p1t.values (b1 * dt.primary.slots_per_bucket + i1)) = some v
    rw [hval]

/-! ## dt_insert against the specified insertion sequence -/

/-- `dt_insert` as the specification describes the sequence: scan the
key's primary bucket for the first free slot; if the bucket is full,
double the primary table's active slot budget (capped at the maximum
capacity) and retry once; if that fails, do the same against the
secondary table (its own seed and bucket sizing, one grow-and-retry);
report failure exactly when all of these attempts fail.  Unlike the
implementation, the retry is unconditional: at maximum capacity the
budget doubling is a no-op and the retry simply scans the unchanged
bucket again. -/
def dtInsertSpec (dt : DtState) (k v : List Nat) : Nat × DtState :=
  match lb_insert dt.primary k v PRIMARY_SEED with
  | some (_, _, p1) => (1, { dt with primary := p1 })
  | none =>
    let pg := (lb_grow dt.primary).2
    match lb_insert pg k v PRIMARY_SEED with
    | some (_, _, p2) => (1, { dt with primary := p2 })
    | none =>
      let dt1 : DtState := { dt with primary := pg }
      match lb_insert dt1.secondary k v SECONDARY_SEED with
      | some (_, _, s1) => (1, { dt1 with secondary := s1 })
      | none =>
        let sg := (lb_grow dt1.secondary).2
        match lb_insert sg k v SECONDARY_SEED with
        | some (_, _, s2) => (1, { dt1 with secondary := s2 })
        | none => (0, { dt1 with secondary := sg })

/-- When the first scan of a bucket found no free slot, guarding the
retry on whether the table actually grew does not change the outcome: a
non-growing `lb_grow` leaves the table unchanged, and rescanning the
unchanged bucket fails again. -/
theorem lb_grow_retry (t : LbTable) (k v : List Nat) (seed : Nat)
    (h1 : lb_insert t k v seed = none) :
    (if (lb_grow t).1 = 1 then lb_insert (lb_grow t).2 k v seed else none) =
    lb_insert (lb_grow t).2 k v seed := by
  by_cases hc : t.count ≥ MAX_CAPACITY
  · have hg : lb_grow t = (0, t) := by
      unfold lb_grow
      rw [if_pos hc]
    rw [hg]
    show (if (0:Nat) = 1 then lb_insert t k v seed else none) = lb_insert t k v seed
    rw [if_neg (by omega), h1]
  · have hg1 : (lb_grow t).1 = 1 := by
      unfold lb_grow
      rw [if_neg hc]
    rw [if_pos hg1]

theorem dt_insert_eq_spec (dt : DtState) (k v : List Nat) :
    dt_insert dt k v = dtInsertSpec dt k v := by
  show (match lb_insert dt.primary k v PRIMARY_SEED with
    | some (_, _, p1) => ((1:Nat), DtState.mk p1 dt.secondary)
    | none =>
      match (if (lb_grow dt.primary).1 = 1
          then lb_insert (lb_grow dt.primary).2 k v PRIMARY_SEED else none) with
      | some (_, _, p2) => (1, DtState.mk p2 dt.secondary)
      | none =>
        match lb_insert dt.secondary k v SECONDARY_SEED with
        | some (_, _, s1) => (1, DtState.mk (lb_grow dt.primary).2 s1)
        | none =>
          match (if (lb_grow dt.secondary).1 = 1
              then lb_insert (lb_grow dt.secondary).2 k v SECONDARY_SEED else none) with
          | some (_, _, s2) => (1, DtState.mk (lb_grow dt.primary).2 s2)
          | none => (0, DtState.mk (lb_grow dt.primary).2 (lb_grow dt.secondary).2)) =
    (match lb_insert dt.primary k v PRIMARY_SEED with
    | some (_, _, p1) => ((1:Nat), DtState.mk p1 dt.secondary)
    | none =>
      match lb_insert (lb_grow dt.primary).2 k v PRIMARY_SEED with
      | some (_, _, p2) => (1, DtState.mk p2 dt.secondary)
      | none =>
        match lb_insert dt.secondary k v SECONDARY_SEED with
        | some (_, _, s1) => (1, DtState.mk (lb_grow dt.primary).2 s1)
        | none =>
          match lb_insert (lb_grow dt.secondary).2 k v SECONDARY_SEED with
          | some (_, _, s2) => (1, DtState.mk (lb_grow dt.primary).2 s2)
          | none => (0, DtState.mk (lb_grow dt.primary).2 (lb_grow dt.secondary).2))
  rcases h1 : lb_insert dt.primary k v PRIMARY_SEED with _ | p
  · rw [lb_grow_retry dt.primary k v PRIMARY_SEED h1]
    rcases h2 : lb_insert (lb_grow dt.primary).2 k v PRIMARY_SEED with _ | p2
    · rcases h3 : lb_insert dt.secondary k v SECONDARY_SEED with _ | s
      · rw [lb_grow_retry dt.secondary k v SECONDARY_SEED h3]
      · rfl
    · rfl
  · rfl

/-! ## Consequences of the probe-loop lemmas for single operations -/

/-- A successful (code 0) `ht_insert`, with either allocation outcome
and any terminating fuel, leaves a well-formed table storing the
record. -/
theorem ht_insert_zero {allocOk : Bool} {ht : HashTable} {k v : List Nat} {fuel : Nat}
    {ht' : HashTable} (hI : Inv ht) (hk : k.length = ht.key_size)
    (hres : ht_insert allocOk fuel ht k v = some (0, ht')) :
    Inv ht' ∧ stored ht' k v := by
  rcases allocOk with _ | _
  · unfold ht_insert at hres
    by_cases hload : 2 * (ht.size + 1) > ht.capacity
    · rw [if_pos hload] at hres
      have hrz : ht_resize false fuel ht (ht.capacity * 2) = some (1, { ht with size := 0 }) := by
        unfold ht_resize
        rw [if_pos rfl]
      rw [hrz] at hres
      have hres2 : (if (1:Nat) ≠ 0 then some ((1:Nat), { ht with size := 0 }) else
          match rh_place fuel { ht with size := 0 } k v with
          | none => none
          | some (ht2, _) => some (0, ht2)) = some (0, ht') := hres
      rw [if_pos (by omega)] at hres2
      simp only [Option.some.injEq, Prod.mk.injEq] at hres2
      omega
    · rw [if_neg hload] at hres
      have htrue : ht_insert true fuel ht k v = some (0, ht') := by
        unfold ht_insert
        rw [if_neg hload]
        exact hres
      have hbig := ht_insert_mono (le_max_left fuel (2 * ht.capacity + 1)) htrue
      obtain ⟨_, hI', _, _, hst, _⟩ := ht_insert_some hI hk
        (lt_of_lt_of_le (by omega) (le_max_right fuel (2 * ht.capacity + 1))) hbig
      exact ⟨hI', hst⟩
  · have hbig := ht_insert_mono (le_max_left fuel (2 * ht.capacity + 1)) hres
    obtain ⟨_, hI', _, _, hst, _⟩ := ht_insert_some hI hk
      (lt_of_lt_of_le (by omega) (le_max_right fuel (2 * ht.capacity + 1))) hbig
    exact ⟨hI', hst⟩

/-- After any terminating `ht_delete`, the key is no longer found. -/
theorem ht_delete_then_find {ht : HashTable} (hI : Inv ht) {k : List Nat} {fuel r : Nat}
    {ht' : HashTable} (hres : ht_delete fuel ht k = some (r, ht')) :
    ht_find (ht'.capacity + 1) ht' k = some none := by
  have hbig := ht_delete_mono (le_max_left fuel (ht.capacity + 1)) hres
  by_cases hhk : hasKey ht k
  · obtain ⟨j, w, hst⟩ := hhk
    obtain ⟨_, hI', _, _, _, _, habs', _, _⟩ := ht_delete_present hI hst
      (max fuel (ht.capacity + 1))
      (lt_of_lt_of_le (by omega) (le_max_right fuel (ht.capacity + 1))) hbig
    exact ht_find_absent hI' habs'
  · have habs := ht_delete_absent hI hhk (max fuel (ht.capacity + 1))
      (lt_of_lt_of_le (by omega) (le_max_right fuel (ht.capacity + 1)))
    rw [habs] at hbig
    simp only [Option.some.injEq, Prod.mk.injEq] at hbig
    rw [← hbig.2]
    exact ht_find_absent hI hhk

/-- Deleting an absent key is a no-op returning 0. -/
theorem ht_delete_absent_noop {ht : HashTable} (hI : Inv ht) {k : List Nat}
    (hhk : ¬ hasKey ht k) {fuel r : Nat} {ht' : HashTable}
    (hres : ht_delete fuel ht k = some (r, ht')) : ht' = ht ∧ r = 0 := by
  have hbig := ht_delete_mono (le_max_left fuel (ht.capacity + 1)) hres
  have habs := ht_delete_absent hI hhk (max fuel (ht.capacity + 1))
    (lt_of_lt_of_le (by omega) (le_max_right fuel (ht.capacity + 1)))
  rw [habs] at hbig
  simp only [Option.some.injEq, Prod.mk.injEq] at hbig
  exact ⟨hbig.2.symm, hbig.1.symm⟩

/-! ## Concrete executions used by the claims -/

/-- One step of a bulk insertion into the dereference table: insert the
one-byte key `[i]` with value `[i]`, tracking in the first component
whether every insert so far reported success. -/
def c1Step (acc : Nat × DtState) (i : Nat) : Nat × DtState :=
  let r2 := dt_insert acc.2 [i] [i]
  (acc.1 * r2.1, r2.2)

/-- Insert the pairwise distinct one-byte keys `[0] .. [n-1]` into a
fresh 1-byte-key/1-byte-value dereference table. -/
def c1Run (n : Nat) : Nat × DtState := (List.range n).foldl c1Step (1, dt_create 1 1)

/-- Four successful inserts into a fresh 1-byte/1-byte Robin Hood table
(capacity 8, no growth triggered: the load check `2*(size+1) > 8` stays
false through `size = 3`). -/
def c3Chain : Option HashTable :=
  (ht_insert true 64 (ht_init 1 1) [0] [5]).bind (fun p =>
  (ht_insert true 64 p.2 [1] [6]).bind (fun q =>
  (ht_insert true 64 q.2 [2] [7]).bind (fun s =>
  (ht_insert true 64 s.2 [3] [8]).map Prod.snd)))

/-- The Robin Hood state after inserting key `[0]` with value `[1]` into
a fresh 1-byte/1-byte table. -/
def c5ht1 : HashTable := ((ht_insert true 64 (ht_init 1 1) [0] [1]).getD (0, ht_init 1 1)).2

/-- The state after then overwriting key `[0]` with value `[2]`. -/
def c5ht2 : HashTable := ((ht_insert true 64 c5ht1 [0] [2]).getD (0, ht_init 1 1)).2

/-! ## The claims -/

set_option maxRecDepth 100000 in
set_option maxHeartbeats 4000000 in
/-- C1: REFUTED by the code.  Inserting the 112 pairwise distinct
one-byte keys `0x00 .. 0x6F` into a fresh `dt_create 1 1` table — every
insert reporting success, with no intervening delete or reset — makes
the 112th insert grow the primary table a second time (count 128 → 256),
which recomputes `num_buckets` from 1 to 2.  Key `0x00` is still
physically stored in slot 0 with its bitmap bit set, and was found by
`dt_lookup` before this growth, but afterwards its bucket is re-derived
as bucket 1 and `dt_lookup` no longer finds it: the growth loses a
previously inserted, not-yet-deleted key. -/
theorem claim_C1 :
    (c1Run 112).1 = 1 ∧
    dt_lookup (c1Run 111).2 [0] = some [0] ∧
    dt_lookup (c1Run 112).2 [0] = none ∧
    (c1Run 111).2.primary.num_buckets = 1 ∧
    (c1Run 112).2.primary.num_buckets = 2 ∧
    (c1Run 112).2.primary.bitmap 0 = true ∧
    (c1Run 112).2.primary.keys 0 = [0] := by
  decide

/-- C2: REFUTED by the code.  The implemented `dt_insert`
(src/tp_dtable.h lines 195–209) returns a bare `int` flag — `1` on
success, `0` on failure — and discards the bucket and slot reported by
`lb_insert`, never constructing the `tiny_ptr_t` location token that the
prototype on line 41 declares.  Concretely, two successive successful
inserts that occupy two different slots (0 and 1 of primary bucket 0)
both return exactly the same bare value `1`, so no location token is
returned whose persistence could even be stated. -/
theorem claim_C2 :
    (dt_insert (dt_create 1 1) [0] [7]).1 = 1 ∧
    (dt_insert (dt_insert (dt_create 1 1) [0] [7]).2 [1] [8]).1 = 1 ∧
    (dt_insert (dt_create 1 1) [0] [7]).2.primary.bitmap 0 = true ∧
    (dt_insert (dt_create 1 1) [0] [7]).2.primary.bitmap 1 = false ∧
    (dt_insert (dt_insert (dt_create 1 1) [0] [7]).2 [1] [8]).2.primary.bitmap 1 = true := by
  decide

/-- C3: REFUTED by the code.  Starting from four records in a fresh
capacity-8 table (`size = 4`), the next insert triggers the growth path;
when the growth allocation fails the insert returns error 1 as the claim
says, but `ht_resize` has already set `ht->size = 0` and its failure
path does not restore it: the resulting state has `size = 0` while the
four records are still stored (`countOccupied = 4`), so the table is not
in its last valid state. -/
theorem claim_C3 :
    (c3Chain.map (fun ht => (ht.size, countOccupied ht)) = some (4, 4)) ∧
    ((c3Chain.bind (fun ht4 => ht_insert false 64 ht4 [4] [9])).map
        (fun p => (p.1, p.2.size, countOccupied p.2)) = some (1, 0, 4)) := by
  decide

/-- C4: corrected.  The Robin Hood half of the claim is false: the C
comment "not found is not an error" notwithstanding, `ht_delete` returns
0 on BOTH paths (src/ht.h lines 250 and 266), so it never reports via
its return value whether a record was removed.  The dereference-table
half is true: `dt_delete` returns 1 exactly when its bucket scans find
the key, i.e. exactly when `dt_lookup` would succeed on the same
state. -/
theorem claim_C4 :
    (∀ fuel : Nat, ∀ ht : HashTable, ∀ k : List Nat, ∀ r : Nat, ∀ ht' : HashTable,
      ht_delete fuel ht k = some (r, ht') → r = 0) ∧
    (∀ dt : DtState, ∀ k : List Nat,
      (((dt_delete dt k).1 = 1) ↔ (dt_lookup dt k).isSome = true)) :=
  ⟨fun _ _ _ _ _ h => ht_delete_code_zero h, fun dt k => (dt_delete_code dt k).1⟩

theorem claim_C4_witness : (0 : Nat) = 0 :=
  claim_C4.1 16 (ht_init 1 1) [0] 0 (ht_init 1 1) rfl

/-- C4 counterexample: a record with key `[0]` is present (`size = 1`)
and is removed by `ht_delete` (`size` drops to 0), yet the return value
is 0 — false — where the claim requires true. -/
theorem claim_C4_counterexample :
    (Option.map (fun p => ((ht_delete 32 p.2 [0]).map (fun q => (q.1, q.2.size)), p.2.size))
      (ht_insert true 64 (ht_init 1 1) [0] [5]))
      = some (some (0, 0), 1) := by
  decide

/-- C5: corrected.  For the Robin Hood engine the claim holds: on a
well-formed table, inserting `(k, v1)` and then `(k, v2)` stores `v2`,
leaves the occupied count unchanged, a lookup returns `v2`, and exactly
one record for `k` exists (unique slot and unique value).  For the
dereference-table engine it is false: `lb_insert` performs no duplicate
check, so the second insert creates a second record in the next free
slot of the same bucket and `dt_lookup` — which scans the bucket in slot
order — keeps returning the FIRST, older value `[1]`, not `[2]`. -/
theorem claim_C5 :
    (∀ ht : HashTable, Inv ht → ∀ k v1 v2 : List Nat, ∀ f1 f2 r1 r2 : Nat,
      ∀ ht1 ht2 : HashTable, k.length = ht.key_size →
      2 * ht.capacity < f1 → 2 * ht1.capacity < f2 →
      ht_insert true f1 ht k v1 = some (r1, ht1) →
      ht_insert true f2 ht1 k v2 = some (r2, ht2) →
      ht_find (ht2.capacity + 1) ht2 k = some (some v2) ∧
      countOccupied ht2 = countOccupied ht1 ∧
      (∀ v', stored ht2 k v' → v' = v2) ∧
      (∀ i1 i2 : Nat, ∀ v' v'' : List Nat, storedAt ht2 i1 k v' → storedAt ht2 i2 k v'' →
        i1 = i2)) ∧
    dt_lookup (dt_insert (dt_insert (dt_create 1 1) [3] [1]).2 [3] [2]).2 [3] = some [1] ∧
    (dt_insert (dt_insert (dt_create 1 1) [3] [1]).2 [3] [2]).2.primary.keys 0 = [3] ∧
    (dt_insert (dt_insert (dt_create 1 1) [3] [1]).2 [3] [2]).2.primary.keys 1 = [3] ∧
    (dt_insert (dt_insert (dt_create 1 1) [3] [1]).2 [3] [2]).2.primary.bitmap 0 = true ∧
    (dt_insert (dt_insert (dt_create 1 1) [3] [1]).2 [3] [2]).2.primary.bitmap 1 = true := by
  constructor
  · intro ht hI k v1 v2 f1 f2 r1 r2 ht1 ht2 hk hf1 hf2 hres1 hres2
    obtain ⟨_, hI1, hks1, _, hst1, _, _, _⟩ := ht_insert_some hI hk hf1 hres1
    have hk1 : k.length = ht1.key_size := by rw [hks1, ← hk]
    obtain ⟨_, hI2, _, _, hst2, _, huniq2, hcnt2⟩ := ht_insert_some hI1 hk1 hf2 hres2
    have hhk1 : hasKey ht1 k := by
      obtain ⟨i, hi⟩ := hst1
      exact ⟨i, v1, hi⟩
    refine ⟨?_, ?_, huniq2, ?_⟩
    · obtain ⟨i, hi⟩ := hst2
      exact ht_find_stored hI2 hi
    · rcases hcnt2 with ⟨_, hceq⟩ | ⟨hnk, _⟩
      · exact hceq
      · exact absurd hhk1 hnk
    · intro i1 i2 v' v'' h1 h2
      exact hI2.distinct i1 h1.1 i2 h2.1 h1.2.1 h2.2.1 (by rw [h1.2.2.1, h2.2.2.1])
  · decide

theorem claim_C5_witness :
    ht_find (c5ht2.capacity + 1) c5ht2 [0] = some (some [2]) :=
  (claim_C5.1 (ht_init 1 1) (ht_init_inv 1 1) [0] [1] [2] 64 64 0 0 c5ht1 c5ht2
    rfl (by decide) (by decide) rfl rfl).1

/-- C5 counterexample: on the dereference table, inserting `(0x03, 01)`
and then `(0x03, 02)` into a fresh table leaves TWO records for the key
(slots 0 and 1 of primary bucket 0, both holding key `0x03`) and a
lookup returns the first value `01`, not the updated `02`. -/
theorem claim_C5_counterexample :
    (dt_insert (dt_insert (dt_create 1 1) [3] [1]).2 [3] [2]).1 = 1 ∧
    dt_lookup (dt_insert (dt_insert (dt_create 1 1) [3] [1]).2 [3] [2]).2 [3] ≠ some [2] ∧
    (dt_insert (dt_insert (dt_create 1 1) [3] [1]).2 [3] [2]).2.primary.values 0 = [1] ∧
    (dt_insert (dt_insert (dt_create 1 1) [3] [1]).2 [3] [2]).2.primary.values 1 = [2] := by
  decide

/-- C6: corrected.  For the Robin Hood engine the claim holds on every
reachable state: a successful (code 0) insert of `(k, v)` is immediately
findable with value `v`.  For the dereference table it holds only when
no slot of either table already held `k`; on a reachable state with a
duplicate key (see the counterexample) the insert succeeds yet lookup
returns the older value. -/
theorem claim_C6 :
    (∀ ht : HashTable, Reach ht → ∀ allocOk : Bool, ∀ fuel : Nat, ∀ k v : List Nat,
      ∀ ht' : HashTable, k.length = ht.key_size →
      ht_insert allocOk fuel ht k v = some (0, ht') →
      ht_find (ht'.capacity + 1) ht' k = some (some v)) ∧
    (∀ dt dt' : DtState, ∀ k v : List Nat,
      lbAbsent dt.primary k → lbAbsent dt.secondary k →
      dt_insert dt k v = (1, dt') → dt_lookup dt' k = some v) ∧
    (dt_insert (dt_insert (dt_create 2 1) [1, 2] [5]).2 [1, 2] [9]).1 = 1 ∧
    dt_lookup (dt_insert (dt_insert (dt_create 2 1) [1, 2] [5]).2 [1, 2] [9]).2 [1, 2]
      = some [5] := by
  refine ⟨?_, ?_, by decide, by decide⟩
  · intro ht hR allocOk fuel k v ht' hk hres
    obtain ⟨hI', hst⟩ := ht_insert_zero (Reach_inv hR) hk hres
    obtain ⟨i, hi⟩ := hst
    exact ht_find_stored hI' hi
  · intro dt dt' k v hp hs h
    exact dt_insert_fresh hp hs h

theorem claim_C6_witness :
    dt_lookup (dt_insert (dt_create 1 1) [7] [3]).2 [7] = some [3] :=
  claim_C6.2.1 (dt_create 1 1) (dt_insert (dt_create 1 1) [7] [3]).2 [7] [3]
    (fun _ hp => Bool.noConfusion hp.1) (fun _ hp => Bool.noConfusion hp.1) rfl

/-- C6 counterexample: the state after inserting `(0x0102, 05)` into a
fresh 2-byte-key table is reachable; inserting `(0x0102, 09)` there
succeeds (returns 1) but the immediate lookup returns the older value
`05`, not `09`. -/
theorem claim_C6_counterexample :
    (dt_insert (dt_insert (dt_create 2 1) [1, 2] [5]).2 [1, 2] [9]).1 = 1 ∧
    dt_lookup (dt_insert (dt_insert (dt_create 2 1) [1, 2] [5]).2 [1, 2] [9]).2 [1, 2]
      ≠ some [9] := by
  decide

/-- C7: the implemented `dt_insert` follows exactly the claimed
sequence, stated as the independently defined `dtInsertSpec`: primary
bucket first-free-slot scan; on a full bucket a capped doubling of the
primary's active slot budget and one retry; then the secondary table the
same way with its own seed and bucket sizing; failure reported exactly
when all attempts fail.  The only textual difference — the code skips
the retry when `lb_grow` reports no growth, while the specification
retries unconditionally — does not change the result, because a no-op
grow leaves the bucket unchanged and rescanning it fails again. -/
theorem claim_C7 : ∀ dt : DtState, ∀ k v : List Nat, dt_insert dt k v = dtInsertSpec dt k v :=
  dt_insert_eq_spec

/-- C8: corrected.  For the Robin Hood engine the claim holds on every
reachable state: after a terminating `ht_delete`, `ht_find` reports
not-found, and deleting an absent key returns 0 and leaves the state
unchanged.  For the dereference table, delete-then-lookup yields
not-found only when at most one copy of the key exists; with duplicate
records (reachable, see the counterexample) the delete clears only the
first matching slot and lookup still finds the second.  Delete of an
absent key does leave the table unchanged with return 0. -/
theorem claim_C8 :
    (∀ ht : HashTable, Reach ht → ∀ k : List Nat, ∀ fuel r : Nat, ∀ ht' : HashTable,
      ht_delete fuel ht k = some (r, ht') →
      ht_find (ht'.capacity + 1) ht' k = some none) ∧
    (∀ ht : HashTable, Reach ht → ∀ k : List Nat, ∀ fuel r : Nat, ∀ ht' : HashTable,
      ¬ hasKey ht k → ht_delete fuel ht k = some (r, ht') → ht' = ht ∧ r = 0) ∧
    (∀ dt : DtState, ∀ k : List Nat, dtAtMostOne dt k →
      dt_lookup (dt_delete dt k).2 k = none) ∧
    (∀ dt : DtState, ∀ k : List Nat, dt_lookup dt k = none → dt_delete dt k = (0, dt)) := by
  refine ⟨?_, ?_, ?_, ?_⟩
  · intro ht hR k fuel r ht' hres
    exact ht_delete_then_find (Reach_inv hR) hres
  · intro ht hR k fuel r ht' hhk hres
    exact ht_delete_absent_noop (Reach_inv hR) hhk hres
  · intro dt k hu
    exact dt_delete_unique hu
  · intro dt k h
    exact dt_delete_of_lookup_none h

theorem claim_C8_witness :
    dt_delete (dt_create 3 1) [1] = (0, dt_create 3 1) :=
  claim_C8.2.2.2 (dt_create 3 1) [1] (by decide)

/-- C8 counterexample: after inserting `(0x04, 01)` twice-keyed
duplicates `(0x04, 01)` then `(0x04, 02)` into a fresh table — a
reachable state — `dt_delete` returns 1 but clears only the first copy,
and the subsequent `dt_lookup` still finds the key with value `02`
instead of reporting not-found. -/
theorem claim_C8_counterexample :
    (dt_delete (dt_insert (dt_insert (dt_create 1 1) [4] [1]).2 [4] [2]).2 [4]).1 = 1 ∧
    dt_lookup
      (dt_delete (dt_insert (dt_insert (dt_create 1 1) [4] [1]).2 [4] [2]).2 [4]).2 [4]
      = some [2] := by
  decide

/-- C9: confirmed.  In every table state reachable by create, insert,
delete, resize and reset, every occupied slot's stored `dist` equals the
forward distance modulo the capacity from the key's home index
`fnv1(key) & (capacity - 1)` to the slot's index, and the early-exit
probe of `ht_find` never skips a present key: any stored record is found
with its value. -/
theorem claim_C9 :
    ∀ ht : HashTable, Reach ht →
      (∀ i, i < ht.capacity → (ht.entries i).dist ≠ -1 →
        (ht.entries i).dist
          = (disp ht.capacity i (fnv1 (ht.entries i).key &&& (ht.capacity - 1)) : Int)) ∧
      (∀ j : Nat, ∀ k v : List Nat, storedAt ht j k v →
        ht_find (ht.capacity + 1) ht k = some (some v)) := by
  intro ht hR
  have hI := Reach_inv hR
  obtain ⟨m, hm⟩ := hI.cap_pow
  constructor
  · intro i hi ho
    rw [mask_eq_mod m hm]
    exact hI.dist_eq i hi ho
  · intro j k v hst
    exact ht_find_stored hI hst

theorem claim_C9_witness :
    (∀ i, i < (ht_init 1 1).capacity → ((ht_init 1 1).entries i).dist ≠ -1 →
      ((ht_init 1 1).entries i).dist
        = (disp (ht_init 1 1).capacity i
            (fnv1 ((ht_init 1 1).entries i).key &&& ((ht_init 1 1).capacity - 1)) : Int)) ∧
    (∀ j : Nat, ∀ k v : List Nat, storedAt (ht_init 1 1) j k v →
      ht_find ((ht_init 1 1).capacity + 1) (ht_init 1 1) k = some (some v)) :=
  claim_C9 (ht_init 1 1) (Reach.init 1 1)

set_option maxRecDepth 100000 in
set_option maxHeartbeats 4000000 in
/-- C10: confirmed.  A fresh dereference table's primary load-balancing
table has an active slot budget `count = 64`, a single bucket, and a
computed bucket size `PRIMARY_BUCKET_SIZE = 110 > 64`; the budget does
not bound which slots inserts occupy: 65 successful inserts of distinct
one-byte keys mark slot index 64 — equal to `count` — occupied and write
the 65th key there, while `count` remains 64 (all inside the
`MAX_CAPACITY`-slot pre-reserved arrays). -/
theorem claim_C10 :
    PRIMARY_BUCKET_SIZE = 110 ∧
    (dt_create 1 1).primary.count = 64 ∧
    (dt_create 1 1).primary.num_buckets = 1 ∧
    (c1Run 65).1 = 1 ∧
    (c1Run 65).2.primary.bitmap 64 = true ∧
    (c1Run 65).2.primary.keys 64 = [64] ∧
    (c1Run 65).2.primary.count = 64 ∧
    64 < PRIMARY_BUCKET_SIZE ∧ 64 + 1 ≤ MAX_CAPACITY := by
  decide

end TPHash
